import Mathlib

/-!
# checkenv: the `show` pipeline

A shallow embedding of `checkenv.go`: the token parser `parseShowSpec`, the
resolver `VariablesFromProviderSpec`, the formatting helpers `AddValueQuotes`
and `RemoveKeyPath`, and the two rendering passes of the `show` case of `main`.

Modelling conventions.

* A Go `string` is a `Str`, a list of characters.  The program only cuts strings
  at the ASCII separators `"://"`, `","`, `"+"` and `"/"`.
* A Go `map[string]V` is a `GoMap V`, an association list in which a key occurs
  at most once.  The order of the list is a representation artefact only: every
  `range` over a map goes through a `RangeOrder`, which picks the order of the
  visit.
* An index expression `a[i]` is fallible (`none` stands for the run-time panic),
  so every function that indexes a slice returns an `Option`.
* Standard output is a list of `Line`s, one per `fmt.Printf` call, holding the
  text written before the terminating newline and the kind of statement that
  wrote it.
-/

namespace Checkenv

/-- A Go string. -/
abbrev Str := List Char

/-! ## The functions of package `strings` that the program calls -/

/-- Go `strings.Index(s, substr)`: the position of the first occurrence of
`substr` in `s`, `none` for the `-1` of Go. -/
def Index : Str → Str → Option Nat
  | [], substr => if substr.isPrefixOf [] then some 0 else none
  | c :: cs, substr =>
    if substr.isPrefixOf (c :: cs) then some 0 else (Index cs substr).map (· + 1)

/-- The loop of Go `strings.genSplit` for a non-empty separator: at most `n`
cuts, each at the first occurrence of `sep` in what is left of `s`. -/
def genSplit (sep : Str) : Nat → Str → List Str
  | 0, s => [s]
  | n + 1, s =>
    match Index s sep with
    | none => [s]
    | some m => s.take m :: genSplit sep n (s.drop (m + sep.length))

/-- Go `strings.Split(s, sep)`.  With an empty separator the string is exploded
into its characters.  Otherwise Go runs the cutting loop `strings.Count(s, sep)`
times; a cut consumes at least one character, so `s.length` rounds are enough
(`genSplit_fuel`). -/
def Split (s sep : Str) : List Str :=
  if sep = [] then s.map (fun c => [c]) else genSplit sep s.length s

/-- Go `strings.Join(elems, sep)`. -/
def Join : List Str → Str → Str
  | [], _ => []
  | [a], _ => a
  | a :: b :: rest, sep => a ++ sep ++ Join (b :: rest) sep

/-- A separator that cannot start inside the text before it and run into its own
next occurrence: `"://"` and every one-character separator are of this kind. -/
def Unbordered (sep : Str) : Prop :=
  ∀ (p f : Str), p ≠ [] → sep <+: p ++ sep ++ f → sep <+: p

/-! ## Go maps -/

/-- A Go `map[string]V`. -/
abbrev GoMap (V : Type) := List (Str × V)

namespace GoMap

/-- The lookup `v, ok := m[k]`. -/
def get? {V : Type} : GoMap V → Str → Option V
  | [], _ => none
  | (k', v) :: rest, k => if k' = k then some v else get? rest k

/-- The assignment `m[k] = v`. -/
def set {V : Type} : GoMap V → Str → V → GoMap V
  | [], k, v => [(k, v)]
  | (k', v') :: rest, k, v => if k' = k then (k, v) :: rest else (k', v') :: set rest k v

/-- The keys of a map. -/
def keys {V : Type} (m : GoMap V) : List Str := m.map Prod.fst

end GoMap

/-! ## `parseShowSpec` -/

/-- The struct `showSpec`.  The maps to `interface{}` only ever hold `nil`: they
are sets of keys. -/
structure showSpec where
  loadFrom : GoMap Unit
  providersFull : GoMap Unit
  providerVars : GoMap (GoMap Unit)
deriving DecidableEq, Repr

/-- The statement `spec.providerVars[providerSpec][varName] = nil`.  Assigning
into the nil map of a missing key is a run-time panic. -/
def addVarName (providerVars : GoMap (GoMap Unit)) (providerSpec varName : Str) :
    Option (GoMap (GoMap Unit)) :=
  match providerVars.get? providerSpec with
  | none => none
  | some queried => some (providerVars.set providerSpec (queried.set varName ()))

/-- The names `xs` assigned one after the other into the set `names`: what the
loop over `varNames` makes of the requested-name set of its provider spec. -/
def insertAll (names : GoMap Unit) (xs : List Str) : GoMap Unit :=
  xs.foldl (fun m x => m.set x ()) names

/-- The body of the loop over `args` in `parseShowSpec`. -/
def parseArg (spec : showSpec) (arg : Str) : Option showSpec := do
  let components := Split arg "://".toList
  let providerSpec ← components[0]?
  let spec := { spec with loadFrom := spec.loadFrom.set providerSpec () }
  if components.length = 1 then
    pure { spec with providersFull := spec.providersFull.set providerSpec () }
  else
    let providerVars :=
      if (spec.providerVars.get? providerSpec).isNone then
        spec.providerVars.set providerSpec []
      else spec.providerVars
    let varSpec := Join (components.drop 1) "://".toList
    let varNames := Split varSpec ",".toList
    let providerVars ← varNames.foldlM (fun pv varName => addVarName pv providerSpec varName)
      providerVars
    pure { spec with providerVars := providerVars }

/-- The function `parseShowSpec`. -/
def parseShowSpec (args : List Str) : Option showSpec :=
  args.foldlM parseArg { loadFrom := [], providersFull := [], providerVars := [] }

/-! ## `VariablesFromProviderSpec` -/

/-- Modelled from the spec: the type of the entries of `RegisteredPlugins`, which
is declared outside `checkenv.go`.  A provider is "a named entity offering
`resolve(argsString) -> (mapping[string]string, error)` plus a short
human-readable description string"; the source uses the fields `Help` and
`Provider`.  An `error` is `none` for `nil` and otherwise carries the text of
`Error()`. -/
structure Plugin where
  Help : Str
  Provider : Str → GoMap Str × Option Str

/-- What a call of `VariablesFromProviderSpec` does: the two values it returns
and the provider invocations it makes on the way, as pairs of registry key and
argument string. -/
structure Resolution where
  vars : GoMap Str
  err : Option Str
  calls : List (Str × Str)

/-- The function `VariablesFromProviderSpec`; the global `RegisteredPlugins` is
the parameter `registry`. -/
def VariablesFromProviderSpec (registry : GoMap Plugin) (providerSpec : Str) :
    Option Resolution := do
  let components := Split providerSpec "+".toList
  let provider ← components[0]?
  let providerArgs := if components.length > 1 then Join (components.drop 1) "+".toList else []
  match registry.get? provider with
  | none =>
    pure { vars := [], err := some ("unregistered provider: ".toList ++ provider), calls := [] }
  | some plugin =>
    let result := plugin.Provider providerArgs
    pure { vars := result.1, err := result.2, calls := [(provider, providerArgs)] }

/-! ## Formatting helpers -/

/-- The function `AddValueQuotes`. -/
def AddValueQuotes (val : Str) (showQuotes : Bool) : Str :=
  if showQuotes then "\"".toList ++ val ++ "\"".toList else val

/-- The function `RemoveKeyPath`. -/
def RemoveKeyPath (key : Str) (removePath : Bool) : Option Str :=
  if removePath then
    let valSlice := Split key "/".toList
    valSlice[valSlice.length - 1]?
  else some key

/-! ## The `show` case of `main` -/

/-- The boolean flags of the `show` subcommand that the pipeline reads. -/
structure Flags where
  showExport : Bool
  showQuotes : Bool
  showRemovePath : Bool
  showRaw : Bool
  showValue : Bool
  showName : Bool
deriving DecidableEq, Repr

/-- The statement that wrote a line: one of the two `# Generated with` headers,
the `# UNDEFINED:` marker, or one of the three renderings of a variable. -/
inductive LineKind where
  | header
  | undefined
  | assignment
  | value
  | name
deriving DecidableEq, Repr

/-- One line of standard output. -/
structure Line where
  kind : LineKind
  text : Str
deriving DecidableEq, Repr

/-- The order in which each `range` over a map in the `show` case visits the
entries.  Go leaves it unspecified, so each loop site has its own choice; the
loops nested in a loop over provider specs choose per provider spec. -/
structure RangeOrder where
  loadFrom : GoMap Unit → GoMap Unit
  providersFull : GoMap Unit → GoMap Unit
  providedVars : Str → GoMap Str → GoMap Str
  providerVars : GoMap (GoMap Unit) → GoMap (GoMap Unit)
  queriedVars : Str → GoMap Unit → GoMap Unit

/-- A range order visits every entry of the map once. -/
def RangeOrder.Fair (ord : RangeOrder) : Prop :=
  (∀ m, (ord.loadFrom m).Perm m) ∧ (∀ m, (ord.providersFull m).Perm m) ∧
  (∀ p m, (ord.providedVars p m).Perm m) ∧ (∀ m, (ord.providerVars m).Perm m) ∧
  (∀ p m, (ord.queriedVars p m).Perm m)

/-- The range order that visits the entries as the association lists hold them. -/
def RangeOrder.insertion : RangeOrder where
  loadFrom := id
  providersFull := id
  providedVars := fun _ => id
  providerVars := id
  queriedVars := fun _ => id

/-- The state of the resolution loop: the map `providedVars`, the provider specs
handed to `VariablesFromProviderSpec` so far, the provider invocations made so
far, and the message of the error that `log.Fatal` reported, if one did. -/
structure Resolved where
  providedVars : GoMap (GoMap Str)
  resolved : List Str
  calls : List (Str × Str)
  fatal : Option Str

/-- The loop `for providerSpec := range spec.loadFrom` over the provider specs
in the order of the visit.  `log.Fatal` ends the process, so the loop stops at
the first error. -/
def resolveLoop (registry : GoMap Plugin) : List Str → Resolved → Option Resolved
  | [], st => some st
  | providerSpec :: rest, st => do
    let r ← VariablesFromProviderSpec registry providerSpec
    match r.err with
    | some msg =>
      pure { st with resolved := st.resolved ++ [providerSpec], calls := st.calls ++ r.calls,
                     fatal := some msg }
    | none =>
      resolveLoop registry rest
        { st with providedVars := st.providedVars.set providerSpec r.vars,
                  resolved := st.resolved ++ [providerSpec], calls := st.calls ++ r.calls }

/-- The body of the loop over `providedVars[providerSpec]` in the full-mode
pass: the lines written for one variable. -/
def fullVar (flags : Flags) (exportPrefix k v : Str) : Option (List Line) :=
  if !flags.showValue && !flags.showName then do
    let key ← RemoveKeyPath k flags.showRemovePath
    pure [⟨.assignment, exportPrefix ++ key ++ "=".toList ++ AddValueQuotes v flags.showQuotes⟩]
  else if flags.showValue then
    pure [⟨.value, AddValueQuotes v flags.showQuotes⟩]
  else if flags.showName then do
    let key ← RemoveKeyPath k flags.showRemovePath
    pure [⟨.name, key⟩]
  else pure []

/-- The header of a full-mode block. -/
def fullHeader (flags : Flags) (providerSpec : Str) : List Line :=
  if !flags.showRaw then
    [⟨.header, "# Generated with ".toList ++ providerSpec ++ " - all variables:".toList⟩]
  else []

/-- A loop whose body may panic: the lines written by running `body` on the
elements of `xs` in turn. -/
def forEach {α : Type} (body : α → Option (List Line)) : List α → Option (List Line)
  | [] => some []
  | x :: xs => do
    let first ← body x
    let rest ← forEach body xs
    pure (first ++ rest)

/-- The body of the loop over `spec.providersFull`: the block of one provider
spec. -/
def fullBlock (flags : Flags) (ord : RangeOrder) (exportPrefix : Str)
    (providedVars : GoMap (GoMap Str)) (providerSpec : Str) : Option (List Line) := do
  let vars := (providedVars.get? providerSpec).getD []
  let body ← forEach (fun kv => fullVar flags exportPrefix kv.1 kv.2)
    (ord.providedVars providerSpec vars)
  pure (fullHeader flags providerSpec ++ body)

/-- The full-mode pass: the loop over `spec.providersFull`. -/
def fullPass (flags : Flags) (ord : RangeOrder) (exportPrefix : Str) (spec : showSpec)
    (providedVars : GoMap (GoMap Str)) : Option (List Line) :=
  forEach (fun entry => fullBlock flags ord exportPrefix providedVars entry.1)
    (ord.providersFull spec.providersFull)

/-- The body of the loop over `queriedVars` in the filtered-mode pass: the lines
written for one requested name. -/
def filteredVar (flags : Flags) (exportPrefix : Str) (definedVars : GoMap Str) (k : Str) :
    List Line :=
  match definedVars.get? k with
  | none => [⟨.undefined, "# UNDEFINED: ".toList ++ k⟩]
  | some v =>
    if !flags.showValue then
      [⟨.assignment, exportPrefix ++ k ++ "=".toList ++ AddValueQuotes v flags.showQuotes⟩]
    else
      [⟨.value, AddValueQuotes v flags.showQuotes⟩]

/-- The header of a filtered-mode block. -/
def filteredHeader (flags : Flags) (providerSpec : Str) : List Line :=
  if !flags.showRaw then
    [⟨.header, "# Generated with ".toList ++ providerSpec ++ " - specific variables:".toList⟩]
  else []

/-- The body of the loop over `spec.providerVars`: the block of one provider
spec and its requested names. -/
def filteredBlock (flags : Flags) (ord : RangeOrder) (exportPrefix : Str)
    (providedVars : GoMap (GoMap Str)) (providerSpec : Str) (queriedVars : GoMap Unit) :
    List Line :=
  let definedVars := (providedVars.get? providerSpec).getD []
  filteredHeader flags providerSpec ++
    ((ord.queriedVars providerSpec queriedVars).map
      (fun entry => filteredVar flags exportPrefix definedVars entry.1)).flatten

/-- The filtered-mode pass: the loop over `spec.providerVars`. -/
def filteredPass (flags : Flags) (ord : RangeOrder) (exportPrefix : Str) (spec : showSpec)
    (providedVars : GoMap (GoMap Str)) : List Line :=
  ((ord.providerVars spec.providerVars).map
    (fun entry => filteredBlock flags ord exportPrefix providedVars entry.1 entry.2)).flatten

/-- What a run of the pipeline leaves behind: the lines on standard output, the
message `log.Fatal` wrote before ending the process with status 1 (if it did),
the provider specs handed to `VariablesFromProviderSpec` and the provider
invocations made, both in order. -/
structure Outcome where
  stdout : List Line
  fatal : Option Str
  resolved : List Str
  calls : List (Str × Str)

/-- The `show` pipeline: `main` from `spec := parseShowSpec(showFlags.Args())` to
the end of the `show` case, that is, after the flags are parsed and the usage
checks have passed. -/
def showPipeline (flags : Flags) (ord : RangeOrder) (registry : GoMap Plugin)
    (args : List Str) : Option Outcome := do
  let spec ← parseShowSpec args
  let st ← resolveLoop registry (ord.loadFrom spec.loadFrom).keys
    { providedVars := [], resolved := [], calls := [], fatal := none }
  match st.fatal with
  | some msg => pure { stdout := [], fatal := some msg, resolved := st.resolved, calls := st.calls }
  | none =>
    let exportPrefix := if flags.showExport then "export ".toList else []
    let full ← fullPass flags ord exportPrefix spec st.providedVars
    let filtered := filteredPass flags ord exportPrefix spec st.providedVars
    pure { stdout := full ++ filtered, fatal := none, resolved := st.resolved, calls := st.calls }

/-! ## Auxiliary definitions and example inputs -/

/-- The registry of the end-to-end examples: one provider `env` that resolves to
`HOME=/root`, `SHELL=/bin/bash` whatever its arguments. -/
def envRegistry : GoMap Plugin :=
  [("env".toList,
    { Help := "environment".toList,
      Provider := fun _ =>
        ([("HOME".toList, "/root".toList), ("SHELL".toList, "/bin/bash".toList)], none) })]

/-- The outcome of `VariablesFromProviderSpec` once the provider name and the
argument string are known. -/
def lookupAndCall (registry : GoMap Plugin) (provider providerArgs : Str) : Resolution :=
  match registry.get? provider with
  | none =>
    { vars := [], err := some ("unregistered provider: ".toList ++ provider), calls := [] }
  | some plugin =>
    { vars := (plugin.Provider providerArgs).1, err := (plugin.Provider providerArgs).2,
      calls := [(provider, providerArgs)] }

/-- A registry with one provider `name` that returns its argument string under
the key `ARGS`. -/
def echoRegistry : GoMap Plugin :=
  [("name".toList,
    { Help := "echo".toList, Provider := fun args => ([("ARGS".toList, args)], none) })]

/-- Two parses hold the same sets: the same keys in `loadFrom`, in `providersFull`
and in `providerVars`, and the same requested names for every provider spec. -/
def showSpec.SameSets (a b : showSpec) : Prop :=
  (∀ k, k ∈ a.loadFrom.keys ↔ k ∈ b.loadFrom.keys) ∧
  (∀ k, k ∈ a.providersFull.keys ↔ k ∈ b.providersFull.keys) ∧
  (∀ k, k ∈ a.providerVars.keys ↔ k ∈ b.providerVars.keys) ∧
  (∀ P n, n ∈ ((a.providerVars.get? P).getD []).keys ↔
    n ∈ ((b.providerVars.get? P).getD []).keys)

/-- All flags off. -/
def noFlags : Flags := ⟨false, false, false, false, false, false⟩

/-! ## Facts about `Index`, `Split` and `Join` -/

theorem Index_of_isPrefix {s sep : Str} (h : sep <+: s) : Index s sep = some 0 := by
  cases s with
  | nil => simp [Index, List.isPrefixOf_iff_prefix, h]
  | cons c cs => simp [Index, List.isPrefixOf_iff_prefix, h]

theorem Index_eq_none_iff (s sep : Str) : Index s sep = none ↔ ¬ sep <:+: s := by
  induction s with
  | nil =>
    simp [Index, List.isPrefixOf_iff_prefix]
  | cons c cs ih =>
    simp only [Index, List.isPrefixOf_iff_prefix, List.infix_cons_iff]
    by_cases h : sep <+: c :: cs
    · simp [h]
    · simp [h, ih]

theorem Index_isPrefix_drop {s sep : Str} {m : Nat} (h : Index s sep = some m) :
    sep <+: s.drop m := by
  induction s generalizing m with
  | nil =>
    simp only [Index, List.isPrefixOf_iff_prefix] at h
    split at h
    · cases h; simpa using ‹sep <+: []›
    · cases h
  | cons c cs ih =>
    simp only [Index, List.isPrefixOf_iff_prefix] at h
    split at h
    · cases h; simpa using ‹sep <+: c :: cs›
    · cases hcs : Index cs sep with
      | none => simp [hcs] at h
      | some m' =>
        simp only [hcs, Option.map_some', Option.some.injEq] at h
        subst h
        simpa using ih hcs

/-- Where `Index` finds the separator, the string is the text before it, the
separator and the text after it. -/
theorem Index_cut {s sep : Str} {m : Nat} (h : Index s sep = some m) :
    s = s.take m ++ sep ++ s.drop (m + sep.length) := by
  obtain ⟨rest, hrest⟩ := Index_isPrefix_drop h
  have hdrop : s.drop (m + sep.length) = rest := by
    rw [← List.drop_drop, ← hrest, List.drop_left]
  rw [hdrop, List.append_assoc, hrest, List.take_append_drop]

/-- The text before the first occurrence of the separator holds no separator. -/
theorem Index_take_free {s sep : Str} {m : Nat} (hsep : sep ≠ []) (h : Index s sep = some m) :
    ¬ sep <:+: s.take m := by
  induction s generalizing m with
  | nil => simpa using hsep
  | cons c cs ih =>
    simp only [Index, List.isPrefixOf_iff_prefix] at h
    split at h
    · cases h; simpa using hsep
    · rename_i hpre
      cases hcs : Index cs sep with
      | none => simp [hcs] at h
      | some m' =>
        simp only [hcs, Option.map_some', Option.some.injEq] at h
        subst h
        rw [List.take_succ_cons, List.infix_cons_iff]
        rintro (hp | hi)
        · exact hpre (hp.trans (List.cons_prefix_cons.mpr ⟨rfl, List.take_prefix _ _⟩))
        · exact ih hcs hi

theorem unbordered_singleton (c : Char) : Unbordered [c] := by
  intro p f hp h
  cases p with
  | nil => exact absurd rfl hp
  | cons d p' =>
    obtain ⟨t, ht⟩ := h
    simp only [List.singleton_append, List.cons_append, List.cons.injEq] at ht
    exact ⟨p', by simp [ht.1]⟩

theorem unbordered_scheme : Unbordered "://".toList := by
  intro p f hp h
  obtain ⟨t, ht⟩ := h
  match p, hp with
  | [a], _ => simp at ht
  | [a, b], _ => simp at ht
  | a :: b :: c :: r, _ =>
    simp only [String.toList, List.cons_append, List.cons.injEq] at ht
    obtain ⟨h1, h2, h3, -⟩ := ht
    subst h1 h2 h3
    exact ⟨r, rfl⟩

/-- In `p ++ sep ++ f` with no separator in `p`, the first separator is the one
written out. -/
theorem Index_append {sep : Str} (hsep : Unbordered sep) (p f : Str) (hp : ¬ sep <:+: p) :
    Index (p ++ sep ++ f) sep = some p.length := by
  induction p with
  | nil => exact Index_of_isPrefix ⟨f, by simp⟩
  | cons c p' ih =>
    have hnot : ¬ sep <+: c :: p' ++ sep ++ f :=
      fun h => hp (hsep (c :: p') f (by simp) h).isInfix
    have hp' : ¬ sep <:+: p' := fun h => hp (List.infix_cons h)
    have := ih hp'
    simp only [List.cons_append, List.append_assoc] at hnot this ⊢
    simp [Index, List.isPrefixOf_iff_prefix, hnot, this]

theorem genSplit_ne_nil (sep : Str) (n : Nat) (s : Str) : genSplit sep n s ≠ [] := by
  cases n with
  | zero => simp [genSplit]
  | succ n =>
    simp only [genSplit]
    split <;> simp

/-- One more round of the cutting loop changes nothing once the rounds cover the
length of the string. -/
theorem genSplit_succ {sep : Str} (hsep : sep ≠ []) (n : Nat) (s : Str) (h : s.length ≤ n) :
    genSplit sep (n + 1) s = genSplit sep n s := by
  induction n generalizing s with
  | zero =>
    have hs : s = [] := List.length_eq_zero.mp (Nat.le_zero.mp h)
    subst hs
    simp [genSplit, Index, List.isPrefixOf_iff_prefix, hsep]
  | succ n ih =>
    rw [genSplit, genSplit]
    split
    · rfl
    · rename_i m hm
      have hlen : (s.drop (m + sep.length)).length ≤ n := by
        have : 0 < sep.length := List.length_pos.mpr hsep
        rw [List.length_drop]
        omega
      rw [ih _ hlen]

/-- The cutting loop does not run out of rounds: every number of rounds from the
length of the string on gives the same pieces. -/
theorem genSplit_fuel {sep : Str} (hsep : sep ≠ []) (n : Nat) (s : Str) (h : s.length ≤ n) :
    genSplit sep n s = genSplit sep s.length s := by
  induction n with
  | zero =>
    have hs : s.length = 0 := Nat.le_zero.mp h
    rw [hs]
  | succ n ih =>
    by_cases hn : s.length ≤ n
    · rw [genSplit_succ hsep n s hn, ih hn]
    · have : s.length = n + 1 := by omega
      rw [this]

theorem Split_ne_nil {sep : Str} (hsep : sep ≠ []) (s : Str) : Split s sep ≠ [] := by
  simp only [Split, hsep, if_false]
  exact genSplit_ne_nil sep _ s

/-- A string without the separator is its own single piece. -/
theorem Split_free {sep : Str} (hsep : sep ≠ []) (s : Str) (h : ¬ sep <:+: s) :
    Split s sep = [s] := by
  simp only [Split, hsep, if_false]
  cases hs : s.length with
  | zero => simp [genSplit]
  | succ n => simp [genSplit, (Index_eq_none_iff s sep).mpr h]

/-- The first piece of `p ++ sep ++ f` is `p` when `p` holds no separator, and
the other pieces are those of `f`. -/
theorem Split_append {sep : Str} (hsep : sep ≠ []) (hun : Unbordered sep) (p f : Str)
    (hp : ¬ sep <:+: p) : Split (p ++ sep ++ f) sep = p :: Split f sep := by
  have hpos : 0 < sep.length := List.length_pos.mpr hsep
  simp only [Split, hsep, if_false]
  obtain ⟨n, hn⟩ : ∃ n, (p ++ sep ++ f).length = n + 1 :=
    ⟨p.length + sep.length + f.length - 1, by simp only [List.length_append]; omega⟩
  rw [hn, genSplit, Index_append hun p f hp]
  have htake : (p ++ sep ++ f).take p.length = p := by
    rw [List.append_assoc, List.take_left]
  have hdrop : (p ++ sep ++ f).drop (p.length + sep.length) = f := by
    rw [← List.length_append, List.drop_left]
  simp only [htake, hdrop]
  rw [genSplit_fuel hsep n f (by simp only [List.length_append] at hn; omega)]

/-- No piece of a split holds the separator: the cutting loop ran to its end. -/
theorem Split_pieces_free {sep : Str} (hsep : sep ≠ []) (s piece : Str)
    (h : piece ∈ Split s sep) : ¬ sep <:+: piece := by
  simp only [Split, hsep, if_false] at h
  have key : ∀ (n : Nat) (s : Str), s.length ≤ n → ∀ x ∈ genSplit sep n s, ¬ sep <:+: x := by
    intro n
    induction n with
    | zero =>
      intro s hs x hx
      have hnil : s = [] := List.length_eq_zero.mp (Nat.le_zero.mp hs)
      subst hnil
      simp only [genSplit, List.mem_singleton] at hx
      subst hx
      simpa using hsep
    | succ n ih =>
      intro s hs x hx
      rw [genSplit] at hx
      split at hx
      · rename_i hnone
        simp only [List.mem_singleton] at hx
        subst hx
        exact (Index_eq_none_iff _ sep).mp hnone
      · rename_i m hm
        rcases List.mem_cons.mp hx with rfl | hrest
        · exact Index_take_free hsep hm
        · refine ih _ ?_ x hrest
          have : 0 < sep.length := List.length_pos.mpr hsep
          rw [List.length_drop]
          omega
  exact key s.length s (Nat.le_refl _) piece h

theorem Join_cons {sep : Str} (a : Str) {rest : List Str} (h : rest ≠ []) :
    Join (a :: rest) sep = a ++ sep ++ Join rest sep := by
  cases rest with
  | nil => exact absurd rfl h
  | cons b r => rfl

/-- Joining the pieces of the cutting loop with the separator gives the string
back. -/
theorem Join_genSplit (sep : Str) (n : Nat) (s : Str) : Join (genSplit sep n s) sep = s := by
  induction n generalizing s with
  | zero => rfl
  | succ n ih =>
    rw [genSplit]
    split
    · rfl
    · rename_i m hm
      rw [Join_cons _ (genSplit_ne_nil sep n _), ih]
      exact (Index_cut hm).symm

theorem Join_Split {sep : Str} (hsep : sep ≠ []) (s : Str) : Join (Split s sep) sep = s := by
  simp only [Split, hsep, if_false]
  exact Join_genSplit sep _ s

/-- A token either holds no separator, or is `p ++ sep ++ f` with no separator in
`p`. -/
theorem cut_cases {sep : Str} (hsep : sep ≠ []) (s : Str) :
    ¬ sep <:+: s ∨ ∃ p f, s = p ++ sep ++ f ∧ ¬ sep <:+: p := by
  cases h : Index s sep with
  | none => exact Or.inl ((Index_eq_none_iff s sep).mp h)
  | some m => exact Or.inr ⟨_, _, Index_cut h, Index_take_free hsep h⟩

/-- The cut of a token at its first separator is unique. -/
theorem cut_unique {sep : Str} (hun : Unbordered sep) {p f q g : Str}
    (hp : ¬ sep <:+: p) (hq : ¬ sep <:+: q) (h : p ++ sep ++ f = q ++ sep ++ g) :
    p = q ∧ f = g := by
  have h1 := Index_append hun p f hp
  have h2 := Index_append hun q g hq
  rw [h, h2] at h1
  have hlen : q.length = p.length := Option.some.inj h1
  rw [List.append_assoc, List.append_assoc] at h
  have hpq := List.append_inj h hlen.symm
  exact ⟨hpq.1, List.append_cancel_left hpq.2⟩

/-! ## Facts about maps -/

namespace GoMap

variable {V : Type}

theorem get?_set_self (m : GoMap V) (k : Str) (v : V) : (m.set k v).get? k = some v := by
  induction m with
  | nil => simp [set, get?]
  | cons e rest ih =>
    obtain ⟨k', v'⟩ := e
    by_cases h : k' = k <;> simp [set, get?, h, ih]

theorem get?_set_ne (m : GoMap V) {k x : Str} (h : k ≠ x) (v : V) :
    (m.set k v).get? x = m.get? x := by
  induction m with
  | nil => simp [set, get?, h]
  | cons e rest ih =>
    obtain ⟨k', v'⟩ := e
    by_cases hk : k' = k
    · subst hk; simp [set, get?, h]
    · by_cases hx : k' = x
      · subst hx; simp [set, get?, hk]
      · simp [set, get?, hk, hx, ih]

theorem set_set (m : GoMap V) (k : Str) (v w : V) : (m.set k v).set k w = m.set k w := by
  induction m with
  | nil => simp [set]
  | cons e rest ih =>
    obtain ⟨k', v'⟩ := e
    by_cases h : k' = k <;> simp [set, h, ih]

theorem set_of_get? {m : GoMap V} {k : Str} {v : V} (h : m.get? k = some v) : m.set k v = m := by
  induction m with
  | nil => simp [get?] at h
  | cons e rest ih =>
    obtain ⟨k', v'⟩ := e
    by_cases hk : k' = k
    · subst hk
      simp only [get?, if_true, Option.some.injEq] at h
      simp [set, h]
    · simp only [get?, hk, if_false] at h
      simp [set, hk, ih h]

theorem mem_keys_set (m : GoMap V) (k : Str) (v : V) (x : Str) :
    x ∈ (m.set k v).keys ↔ x = k ∨ x ∈ m.keys := by
  induction m with
  | nil => simp [GoMap.set, GoMap.keys]
  | cons e rest ih =>
    obtain ⟨k', v'⟩ := e
    simp only [GoMap.keys] at ih
    by_cases h : k' = k
    · subst h
      simp only [GoMap.set, if_true, GoMap.keys, List.map_cons, List.mem_cons]
      tauto
    · simp only [GoMap.set, h, if_false, GoMap.keys, List.map_cons, List.mem_cons, ih]
      tauto

theorem get?_eq_none_iff (m : GoMap V) (k : Str) : m.get? k = none ↔ k ∉ m.keys := by
  induction m with
  | nil => simp [GoMap.get?, GoMap.keys]
  | cons e rest ih =>
    obtain ⟨k', v'⟩ := e
    simp only [GoMap.keys] at ih
    by_cases h : k' = k
    · subst h
      simp only [GoMap.get?, if_true, GoMap.keys, List.map_cons, List.mem_cons, true_or,
        not_true_eq_false, iff_false]
      exact fun hc => Option.noConfusion hc
    · simp only [GoMap.get?, h, if_false, ih, GoMap.keys, List.map_cons, List.mem_cons, not_or]
      exact ⟨fun hr => ⟨fun e => h e.symm, hr⟩, fun hr => hr.2⟩

end GoMap

theorem mem_keys_insertAll (names : GoMap Unit) (xs : List Str) (x : Str) :
    x ∈ (insertAll names xs).keys ↔ x ∈ names.keys ∨ x ∈ xs := by
  induction xs generalizing names with
  | nil => simp [insertAll]
  | cons a rest ih =>
    have := ih (names.set a ())
    simp only [insertAll, List.foldl_cons] at this ⊢
    rw [this, GoMap.mem_keys_set, List.mem_cons]
    tauto

/-! ## Facts about `parseShowSpec` -/

theorem scheme_ne_nil : "://".toList ≠ [] := by decide

theorem comma_ne_nil : ",".toList ≠ [] := by decide

theorem plus_ne_nil : "+".toList ≠ [] := by decide

theorem slash_ne_nil : "/".toList ≠ [] := by decide

/-- The loop over `varNames` never assigns into a nil map once the provider spec
has its entry, and leaves the names added to that entry. -/
theorem foldlM_addVarName (providerSpec : Str) (xs : List Str) (pv : GoMap (GoMap Unit))
    (queried : GoMap Unit) (h : pv.get? providerSpec = some queried) :
    xs.foldlM (fun pv varName => addVarName pv providerSpec varName) pv =
      some (pv.set providerSpec (insertAll queried xs)) := by
  induction xs generalizing pv queried with
  | nil => simp [insertAll, GoMap.set_of_get? h]
  | cons a rest ih =>
    have hstep : addVarName pv providerSpec a =
        some (pv.set providerSpec (queried.set a ())) := by
      simp only [addVarName, h]
    rw [List.foldlM_cons, hstep]
    simp only [Option.some_bind, Option.bind_eq_bind]
    rw [ih _ _ (GoMap.get?_set_self pv providerSpec _), GoMap.set_set]
    rfl

/-- A token without `"://"` is added to `loadFrom` and `providersFull`. -/
theorem parseArg_full (spec : showSpec) (t : Str) (h : ¬ "://".toList <:+: t) :
    parseArg spec t = some
      { spec with loadFrom := spec.loadFrom.set t (),
                  providersFull := spec.providersFull.set t () } := by
  unfold parseArg
  rw [Split_free scheme_ne_nil t h]
  rfl

/-- A token `p ++ "://" ++ f` adds `p` to `loadFrom` and the pieces of `f` to the
requested names of `p`. -/
theorem parseArg_filtered (spec : showSpec) (p f : Str) (hp : ¬ "://".toList <:+: p) :
    parseArg spec (p ++ "://".toList ++ f) = some
      { spec with loadFrom := spec.loadFrom.set p (),
                  providerVars := spec.providerVars.set p
                    (insertAll ((spec.providerVars.get? p).getD []) (Split f ",".toList)) } := by
  unfold parseArg
  rw [Split_append scheme_ne_nil unbordered_scheme p f hp]
  have hlen : ¬ (p :: Split f "://".toList).length = 1 := by
    have := List.length_pos.mpr (Split_ne_nil scheme_ne_nil f)
    simp only [List.length_cons]
    omega
  simp only [List.getElem?_cons_zero, Option.some_bind, Option.bind_eq_bind, hlen, if_false,
    List.drop_succ_cons, List.drop_zero, Join_Split scheme_ne_nil]
  cases hq : spec.providerVars.get? p with
  | none =>
    simp only [Option.isNone_none, if_true, Option.getD_none]
    rw [foldlM_addVarName p _ _ [] (GoMap.get?_set_self _ p _), GoMap.set_set]
    rfl
  | some queried =>
    simp only [Option.isNone_some, Option.getD_some]
    rw [if_neg (by simp), foldlM_addVarName p _ _ queried hq]
    rfl

theorem singleton_infix_iff (c : Char) (l : Str) : [c] <:+: l ↔ c ∈ l := by
  constructor
  · intro h
    exact List.singleton_sublist.mp h.sublist
  · intro h
    obtain ⟨a, b, hab⟩ := List.append_of_mem h
    exact ⟨a, b, by simp [hab]⟩

/-- Every token is parsed by one of the two branches of the loop body. -/
theorem parseArg_cases (spec : showSpec) (t : Str) :
    (¬ "://".toList <:+: t ∧ parseArg spec t = some
      { spec with loadFrom := spec.loadFrom.set t (),
                  providersFull := spec.providersFull.set t () }) ∨
    (∃ p f, t = p ++ "://".toList ++ f ∧ ¬ "://".toList <:+: p ∧ parseArg spec t = some
      { spec with loadFrom := spec.loadFrom.set p (),
                  providerVars := spec.providerVars.set p
                    (insertAll ((spec.providerVars.get? p).getD []) (Split f ",".toList)) }) := by
  rcases cut_cases scheme_ne_nil t with h | ⟨p, f, ht, hp⟩
  · exact Or.inl ⟨h, parseArg_full spec t h⟩
  · exact Or.inr ⟨p, f, ht, hp, ht ▸ parseArg_filtered spec p f hp⟩

/-- The loop of `parseShowSpec` started from any `spec0` ends, and what it adds to
each of the three maps is read off the tokens. -/
theorem foldlM_parseArg (args : List Str) (spec0 : showSpec) :
    ∃ spec, args.foldlM parseArg spec0 = some spec ∧
      (∀ k, k ∈ spec.loadFrom.keys ↔ k ∈ spec0.loadFrom.keys ∨
        ∃ t ∈ args, ¬ "://".toList <:+: k ∧ (t = k ∨ ∃ f, t = k ++ "://".toList ++ f)) ∧
      (∀ k, k ∈ spec.providersFull.keys ↔ k ∈ spec0.providersFull.keys ∨
        (k ∈ args ∧ ¬ "://".toList <:+: k)) ∧
      (∀ P n, n ∈ ((spec.providerVars.get? P).getD []).keys ↔
        n ∈ ((spec0.providerVars.get? P).getD []).keys ∨
        ∃ t ∈ args, ∃ f, t = P ++ "://".toList ++ f ∧ ¬ "://".toList <:+: P ∧
          n ∈ Split f ",".toList) := by
  induction args generalizing spec0 with
  | nil => exact ⟨spec0, rfl, by simp, by simp, by simp⟩
  | cons t rest ih =>
    rcases parseArg_cases spec0 t with ⟨hfree, hstep⟩ | ⟨p, f, ht, hp, hstep⟩
    · obtain ⟨spec, hspec, hload, hfull, hvars⟩ := ih
        { spec0 with loadFrom := spec0.loadFrom.set t (),
                     providersFull := spec0.providersFull.set t () }
      refine ⟨spec, ?_, ?_, ?_, ?_⟩
      · rw [List.foldlM_cons, hstep]; exact hspec
      · intro k
        rw [hload k, GoMap.mem_keys_set]
        simp only [List.mem_cons, exists_eq_or_imp]
        constructor
        · rintro ((rfl | h) | h)
          · exact Or.inr (Or.inl ⟨hfree, Or.inl rfl⟩)
          · exact Or.inl h
          · exact Or.inr (Or.inr h)
        · rintro (h | ⟨hk, rfl | ⟨f, hf⟩⟩ | h)
          · exact Or.inl (Or.inr h)
          · exact Or.inl (Or.inl rfl)
          · exact absurd ⟨k, f, by rw [hf]⟩ hfree
          · exact Or.inr h
      · intro k
        rw [hfull k, GoMap.mem_keys_set]
        simp only [List.mem_cons]
        constructor
        · rintro ((rfl | h) | h)
          · exact Or.inr ⟨Or.inl rfl, hfree⟩
          · exact Or.inl h
          · exact Or.inr ⟨Or.inr h.1, h.2⟩
        · rintro (h | ⟨rfl | h, hk⟩)
          · exact Or.inl (Or.inr h)
          · exact Or.inl (Or.inl rfl)
          · exact Or.inr ⟨h, hk⟩
      · intro P n
        rw [hvars P n]
        simp only [List.mem_cons, exists_eq_or_imp]
        constructor
        · rintro (h | h)
          · exact Or.inl h
          · exact Or.inr (Or.inr h)
        · rintro (h | ⟨f, hf, -⟩ | h)
          · exact Or.inl h
          · exact absurd ⟨P, f, by rw [hf]⟩ hfree
          · exact Or.inr h
    · obtain ⟨spec, hspec, hload, hfull, hvars⟩ := ih
        { spec0 with loadFrom := spec0.loadFrom.set p (),
                     providerVars := spec0.providerVars.set p
                       (insertAll ((spec0.providerVars.get? p).getD []) (Split f ",".toList)) }
      refine ⟨spec, ?_, ?_, ?_, ?_⟩
      · rw [List.foldlM_cons, hstep]; exact hspec
      · intro k
        rw [hload k, GoMap.mem_keys_set]
        simp only [List.mem_cons, exists_eq_or_imp]
        constructor
        · rintro ((rfl | h) | h)
          · exact Or.inr (Or.inl ⟨hp, Or.inr ⟨f, ht⟩⟩)
          · exact Or.inl h
          · exact Or.inr (Or.inr h)
        · rintro (h | ⟨hk, rfl | ⟨g, hg⟩⟩ | h)
          · exact Or.inl (Or.inr h)
          · exact absurd ⟨p, f, by rw [← ht]⟩ hk
          · exact Or.inl (Or.inl (cut_unique unbordered_scheme hk hp (hg.symm.trans ht)).1)
          · exact Or.inr h
      · intro k
        rw [hfull k]
        simp only [List.mem_cons]
        constructor
        · rintro (h | h)
          · exact Or.inl h
          · exact Or.inr ⟨Or.inr h.1, h.2⟩
        · rintro (h | ⟨rfl | h, hk⟩)
          · exact Or.inl h
          · exact absurd ⟨p, f, by rw [← ht]⟩ hk
          · exact Or.inr ⟨h, hk⟩
      · intro P n
        rw [hvars P n]
        simp only [List.mem_cons, exists_eq_or_imp]
        by_cases hP : p = P
        · subst hP
          rw [GoMap.get?_set_self, Option.getD_some, mem_keys_insertAll]
          constructor
          · rintro ((h | h) | h)
            · exact Or.inl h
            · exact Or.inr (Or.inl ⟨f, ht, hp, h⟩)
            · exact Or.inr (Or.inr h)
          · rintro (h | ⟨g, hg, -, hn⟩ | h)
            · exact Or.inl (Or.inl h)
            · have := (cut_unique unbordered_scheme hp hp (ht.symm.trans hg)).2
              exact Or.inl (Or.inr (this ▸ hn))
            · exact Or.inr h
        · rw [GoMap.get?_set_ne _ hP]
          constructor
          · rintro (h | h)
            · exact Or.inl h
            · exact Or.inr (Or.inr h)
          · rintro (h | ⟨g, hg, hfreeP, -⟩ | h)
            · exact Or.inl h
            · exact absurd (cut_unique unbordered_scheme hp hfreeP (ht.symm.trans hg)).1 hP
            · exact Or.inr h

/-- The parse of a single token is one round of the loop body on the empty
spec. -/
theorem parseShowSpec_singleton (t : Str) :
    parseShowSpec [t] = parseArg { loadFrom := [], providersFull := [], providerVars := [] } t := by
  simp [parseShowSpec, List.foldlM_cons, List.foldlM_nil]

/-! ## Facts about `VariablesFromProviderSpec` -/

theorem plus_free {n : Str} (hn : '+' ∉ n) : ¬ "+".toList <:+: n :=
  fun h => hn ((singleton_infix_iff '+' n).mp h)

/-- A provider spec `n ++ "+" ++ a` with no `"+"` in `n` names the provider `n`
and hands it `a`. -/
theorem VariablesFromProviderSpec_args (registry : GoMap Plugin) (n a : Str) (hn : '+' ∉ n) :
    VariablesFromProviderSpec registry (n ++ "+".toList ++ a) =
      some (lookupAndCall registry n a) := by
  unfold VariablesFromProviderSpec
  rw [Split_append plus_ne_nil (unbordered_singleton '+') n a (plus_free hn)]
  have hlen : (n :: Split a "+".toList).length > 1 := by
    have := List.length_pos.mpr (Split_ne_nil plus_ne_nil a)
    simp only [List.length_cons]
    omega
  simp only [List.getElem?_cons_zero, Option.some_bind, Option.bind_eq_bind, hlen, if_true,
    List.drop_succ_cons, List.drop_zero, Join_Split plus_ne_nil, lookupAndCall]
  cases registry.get? n <;> rfl

/-- A provider spec without `"+"` names the provider and hands it the empty
string. -/
theorem VariablesFromProviderSpec_plain (registry : GoMap Plugin) (n : Str) (hn : '+' ∉ n) :
    VariablesFromProviderSpec registry n = some (lookupAndCall registry n []) := by
  unfold VariablesFromProviderSpec
  rw [Split_free plus_ne_nil n (plus_free hn)]
  simp only [List.getElem?_cons_zero, Option.some_bind, Option.bind_eq_bind,
    List.length_singleton, gt_iff_lt, Nat.lt_irrefl, if_false, lookupAndCall]
  cases registry.get? n <;> rfl

/-- Every provider spec is a name without `"+"`, alone or followed by `"+"` and
an argument string. -/
theorem providerSpec_cases (s : Str) :
    ∃ n a, '+' ∉ n ∧ (s = n ∨ s = n ++ "+".toList ++ a) := by
  rcases cut_cases plus_ne_nil s with h | ⟨n, a, hs, hn⟩
  · exact ⟨s, [], fun hmem => h ((singleton_infix_iff '+' s).mpr hmem), Or.inl rfl⟩
  · exact ⟨n, a, fun hmem => hn ((singleton_infix_iff '+' n).mpr hmem), Or.inr hs⟩

/-- The function `VariablesFromProviderSpec` returns on every input. -/
theorem VariablesFromProviderSpec_returns (registry : GoMap Plugin) (s : Str) :
    ∃ r, VariablesFromProviderSpec registry s = some r := by
  obtain ⟨n, a, hn, hs | hs⟩ := providerSpec_cases s
  · exact ⟨_, hs ▸ VariablesFromProviderSpec_plain registry n hn⟩
  · exact ⟨_, hs ▸ VariablesFromProviderSpec_args registry n a hn⟩

/-! ## Facts about the resolution loop -/

/-- The resolution loop returns, and when one of the provider specs it is given
fails, it ends with the error of a failing provider spec. -/
theorem resolveLoop_fails (registry : GoMap Plugin) (specs : List Str) (st : Resolved)
    (p : Str) (hp : p ∈ specs) (r : Resolution)
    (hr : VariablesFromProviderSpec registry p = some r) (hfail : r.err ≠ none) :
    ∃ st', resolveLoop registry specs st = some st' ∧
      ∃ q ∈ specs, ∃ r' e, VariablesFromProviderSpec registry q = some r' ∧
        r'.err = some e ∧ st'.fatal = some e := by
  induction specs generalizing st with
  | nil => cases hp
  | cons k rest ih =>
    obtain ⟨rk, hrk⟩ := VariablesFromProviderSpec_returns registry k
    cases hek : rk.err with
    | some e =>
      refine ⟨{ st with resolved := st.resolved ++ [k], calls := st.calls ++ rk.calls,
                        fatal := some e }, ?_, k, List.mem_cons_self k rest, rk, e, hrk, hek, rfl⟩
      simp only [resolveLoop, hrk, Option.some_bind, Option.bind_eq_bind, hek]
      rfl
    | none =>
      have hprest : p ∈ rest := by
        rcases List.mem_cons.mp hp with rfl | h
        · rw [hr] at hrk
          cases hrk
          exact absurd hek hfail
        · exact h
      obtain ⟨st', hst', q, hq, r', e, hq1, hq2, hq3⟩ := ih
        { st with providedVars := st.providedVars.set k rk.vars,
                  resolved := st.resolved ++ [k], calls := st.calls ++ rk.calls } hprest
      refine ⟨st', ?_, q, List.mem_cons_of_mem k hq, r', e, hq1, hq2, hq3⟩
      simp only [resolveLoop, hrk, Option.some_bind, Option.bind_eq_bind, hek]
      exact hst'

/-- The resolution loop returns on every input. -/
theorem resolveLoop_returns (registry : GoMap Plugin) (specs : List Str) (st : Resolved) :
    ∃ st', resolveLoop registry specs st = some st' := by
  induction specs generalizing st with
  | nil => exact ⟨st, rfl⟩
  | cons k rest ih =>
    obtain ⟨rk, hrk⟩ := VariablesFromProviderSpec_returns registry k
    cases hek : rk.err with
    | some e =>
      exact ⟨_, by simp only [resolveLoop, hrk, Option.some_bind, Option.bind_eq_bind, hek]; rfl⟩
    | none =>
      obtain ⟨st', hst'⟩ := ih
        { st with providedVars := st.providedVars.set k rk.vars,
                  resolved := st.resolved ++ [k], calls := st.calls ++ rk.calls }
      exact ⟨st', by
        simp only [resolveLoop, hrk, Option.some_bind, Option.bind_eq_bind, hek]; exact hst'⟩

/-- A resolution loop that ends without error has called
`VariablesFromProviderSpec` on each provider spec, in order, every call
succeeded, and `providedVars` holds what the call for each provider spec
returned. -/
theorem resolveLoop_ok (registry : GoMap Plugin) (specs : List Str) (st st' : Resolved)
    (h : resolveLoop registry specs st = some st') (hst : st.fatal = none)
    (hfat : st'.fatal = none) :
    (∀ p ∈ specs, ∃ r, VariablesFromProviderSpec registry p = some r ∧ r.err = none ∧
      st'.providedVars.get? p = some r.vars) ∧
    (∀ p, p ∉ specs → st'.providedVars.get? p = st.providedVars.get? p) ∧
    st'.resolved = st.resolved ++ specs := by
  induction specs generalizing st with
  | nil =>
    simp only [resolveLoop, Option.some.injEq] at h
    subst h
    simp
  | cons k rest ih =>
    obtain ⟨rk, hrk⟩ := VariablesFromProviderSpec_returns registry k
    cases hek : rk.err with
    | some e =>
      simp only [resolveLoop, hrk, Option.some_bind, Option.bind_eq_bind, hek] at h
      cases h
      cases hfat
    | none =>
      simp only [resolveLoop, hrk, Option.some_bind, Option.bind_eq_bind, hek] at h
      obtain ⟨h1, h2, h3⟩ := ih _ h hst
      refine ⟨?_, ?_, ?_⟩
      · intro p hp
        by_cases hprest : p ∈ rest
        · exact h1 p hprest
        · rcases List.mem_cons.mp hp with rfl | hp'
          · refine ⟨rk, hrk, hek, ?_⟩
            rw [h2 p hprest]
            exact GoMap.get?_set_self _ _ _
          · exact absurd hp' hprest
      · intro p hp
        have hpk : k ≠ p := fun e => hp (e ▸ List.mem_cons_self k rest)
        rw [h2 p (fun hm => hp (List.mem_cons_of_mem k hm))]
        exact GoMap.get?_set_ne _ hpk _
      · rw [h3]
        simp

/-! ## Facts about the rendering passes -/

theorem RemoveKeyPath_returns (key : Str) (removePath : Bool) :
    ∃ k, RemoveKeyPath key removePath = some k := by
  cases removePath with
  | false => exact ⟨key, rfl⟩
  | true =>
    have hpos := List.length_pos.mpr (Split_ne_nil slash_ne_nil key)
    have hlt : (Split key "/".toList).length - 1 < (Split key "/".toList).length := by omega
    exact ⟨_, by simp only [RemoveKeyPath, if_true]; exact List.getElem?_eq_getElem hlt⟩

/-- The loop body of the full-mode pass writes one line for a variable: the
assignment, the value or the name, as the flags say. -/
theorem fullVar_line (flags : Flags) (exportPrefix k v : Str) :
    ∃ line, fullVar flags exportPrefix k v = some [line] ∧
      ∃ key, RemoveKeyPath k flags.showRemovePath = some key ∧
        line =
          if !flags.showValue && !flags.showName then
            ⟨.assignment,
              exportPrefix ++ key ++ "=".toList ++ AddValueQuotes v flags.showQuotes⟩
          else if flags.showValue then ⟨.value, AddValueQuotes v flags.showQuotes⟩
          else ⟨.name, key⟩ := by
  obtain ⟨key, hkey⟩ := RemoveKeyPath_returns k flags.showRemovePath
  cases hv : flags.showValue <;> cases hn : flags.showName <;>
    exact ⟨_, by simp only [fullVar, hv, hn, hkey]; rfl, key, hkey, by simp⟩

/-- A loop whose body writes one line per element writes one line per element,
in the order of the elements. -/
theorem forEach_lines {α : Type} (body : α → Option (List Line)) (R : α → Line → Prop)
    (xs : List α) (h : ∀ x ∈ xs, ∃ line, body x = some [line] ∧ R x line) :
    ∃ lines, forEach body xs = some lines ∧ List.Forall₂ R xs lines := by
  induction xs with
  | nil => exact ⟨[], rfl, List.Forall₂.nil⟩
  | cons x rest ih =>
    obtain ⟨line, hline, hR⟩ := h x (List.mem_cons_self x rest)
    obtain ⟨lines, hlines, hall⟩ := ih (fun y hy => h y (List.mem_cons_of_mem x hy))
    refine ⟨line :: lines, ?_, List.Forall₂.cons hR hall⟩
    simp only [forEach, hline, hlines, Option.some_bind, Option.bind_eq_bind]
    rfl

/-- A loop whose body returns on every element writes the blocks of the elements
one after the other. -/
theorem forEach_blocks {α : Type} (body : α → Option (List Line)) (xs : List α)
    (h : ∀ x ∈ xs, ∃ block, body x = some block) :
    ∃ blocks, forEach body xs = some blocks.flatten ∧
      List.Forall₂ (fun x block => body x = some block) xs blocks := by
  induction xs with
  | nil => exact ⟨[], rfl, List.Forall₂.nil⟩
  | cons x rest ih =>
    obtain ⟨block, hblock⟩ := h x (List.mem_cons_self x rest)
    obtain ⟨blocks, hblocks, hall⟩ := ih (fun y hy => h y (List.mem_cons_of_mem x hy))
    refine ⟨block :: blocks, ?_, List.Forall₂.cons hblock hall⟩
    simp only [forEach, hblock, hblocks, Option.some_bind, Option.bind_eq_bind]
    rfl

/-- The block of a provider spec in the full-mode pass: the header, then one
line per variable in the order of the visit. -/
theorem fullBlock_lines (flags : Flags) (ord : RangeOrder) (exportPrefix : Str)
    (providedVars : GoMap (GoMap Str)) (providerSpec : Str) :
    ∃ body, fullBlock flags ord exportPrefix providedVars providerSpec =
        some (fullHeader flags providerSpec ++ body) ∧
      List.Forall₂
        (fun kv line => ∃ key, RemoveKeyPath kv.1 flags.showRemovePath = some key ∧
          line =
            if !flags.showValue && !flags.showName then
              ⟨.assignment,
                exportPrefix ++ key ++ "=".toList ++ AddValueQuotes kv.2 flags.showQuotes⟩
            else if flags.showValue then ⟨.value, AddValueQuotes kv.2 flags.showQuotes⟩
            else ⟨.name, key⟩)
        (ord.providedVars providerSpec ((providedVars.get? providerSpec).getD [])) body := by
  obtain ⟨body, hbody, hall⟩ := forEach_lines
    (fun kv : Str × Str => fullVar flags exportPrefix kv.1 kv.2) _
    (ord.providedVars providerSpec ((providedVars.get? providerSpec).getD []))
    (fun kv _ => fullVar_line flags exportPrefix kv.1 kv.2)
  refine ⟨body, ?_, hall⟩
  simp only [fullBlock, hbody, Option.some_bind, Option.bind_eq_bind]
  rfl

theorem fullBlock_returns (flags : Flags) (ord : RangeOrder) (exportPrefix : Str)
    (providedVars : GoMap (GoMap Str)) (providerSpec : Str) :
    ∃ block, fullBlock flags ord exportPrefix providedVars providerSpec = some block := by
  obtain ⟨body, hbody, -⟩ := fullBlock_lines flags ord exportPrefix providedVars providerSpec
  exact ⟨_, hbody⟩

theorem insertion_fair : RangeOrder.insertion.Fair :=
  ⟨fun _ => List.Perm.refl _, fun _ => List.Perm.refl _, fun _ _ => List.Perm.refl _,
    fun _ => List.Perm.refl _, fun _ _ => List.Perm.refl _⟩

/-! ## The end-to-end example -/

/-- A visit of a map with two entries takes them in one of the two orders. -/
theorem perm_pair_cases {α : Type} {a b : α} {l : List α} (h : l.Perm [a, b]) :
    l = [a, b] ∨ l = [b, a] := by
  have hlen := h.length_eq
  match l, hlen with
  | [x, y], _ =>
    have hx : x ∈ [a, b] := h.subset (by simp)
    have hy : y ∈ [a, b] := h.subset (by simp)
    have ha : a ∈ [x, y] := h.symm.subset (by simp)
    have hb : b ∈ [x, y] := h.symm.subset (by simp)
    simp only [List.mem_cons, List.mem_singleton, List.not_mem_nil, or_false] at hx hy ha hb
    rcases hx with rfl | rfl <;> rcases hy with rfl | rfl
    · rcases hb with rfl | rfl <;> exact Or.inl rfl
    · exact Or.inl rfl
    · exact Or.inr rfl
    · rcases ha with rfl | rfl <;> exact Or.inl rfl

/-- The end-to-end example: the tokens `env` and `env://HOME` on the registry
whose `env` resolves to `HOME=/root`, `SHELL=/bin/bash`, under any range order
that visits each entry once. -/
theorem show_env_example (ord : RangeOrder) (hord : ord.Fair) :
    ∃ body, body.Perm [⟨.assignment, "HOME=/root".toList⟩,
        ⟨.assignment, "SHELL=/bin/bash".toList⟩] ∧
      (showPipeline noFlags ord envRegistry ["env".toList, "env://HOME".toList]).map
          (fun out => out.stdout) =
        some ([⟨.header, "# Generated with env - all variables:".toList⟩] ++ body ++
          [⟨.header, "# Generated with env - specific variables:".toList⟩,
           ⟨.assignment, "HOME=/root".toList⟩]) := by
  have h1 : ord.loadFrom [("env".toList, ())] = [("env".toList, ())] :=
    List.perm_singleton.mp (hord.1 _)
  have h2 : ord.providersFull [("env".toList, ())] = [("env".toList, ())] :=
    List.perm_singleton.mp (hord.2.1 _)
  have h3 : ord.providerVars [("env".toList, [("HOME".toList, ())])] =
      [("env".toList, [("HOME".toList, ())])] :=
    List.perm_singleton.mp (hord.2.2.2.1 _)
  have h4 : ord.queriedVars "env".toList [("HOME".toList, ())] = [("HOME".toList, ())] :=
    List.perm_singleton.mp (hord.2.2.2.2 _ _)
  have hparse : parseShowSpec ["env".toList, "env://HOME".toList] = some
      { loadFrom := [("env".toList, ())], providersFull := [("env".toList, ())],
        providerVars := [("env".toList, [("HOME".toList, ())])] } := by decide
  have hres : resolveLoop envRegistry (GoMap.keys [("env".toList, ())])
      { providedVars := [], resolved := [], calls := [], fatal := none } = some
      { providedVars := [("env".toList,
          [("HOME".toList, "/root".toList), ("SHELL".toList, "/bin/bash".toList)])],
        resolved := ["env".toList], calls := [("env".toList, [])], fatal := none } := rfl
  have hget : (GoMap.get? [("env".toList,
      [("HOME".toList, "/root".toList), ("SHELL".toList, "/bin/bash".toList)])]
      "env".toList).getD [] =
      [("HOME".toList, "/root".toList), ("SHELL".toList, "/bin/bash".toList)] := by decide
  simp only [showPipeline, hparse, Option.some_bind, Option.bind_eq_bind, h1, hres, fullPass,
    h2, forEach, fullBlock, filteredPass, h3, filteredBlock, List.map_cons, List.map_nil, h4,
    hget]
  rcases perm_pair_cases (hord.2.2.1 "env".toList
    [("HOME".toList, "/root".toList), ("SHELL".toList, "/bin/bash".toList)]) with h5 | h5
  · rw [h5]
    exact ⟨_, List.Perm.refl _, by decide⟩
  · rw [h5]
    exact ⟨_, List.Perm.swap _ _ _, by decide⟩

/-! ## More facts about maps and the parse loop -/

theorem GoMap.set_ne_nil {V : Type} (m : GoMap V) (k : Str) (v : V) : m.set k v ≠ [] := by
  cases m with
  | nil => simp [GoMap.set]
  | cons e rest =>
    obtain ⟨k', v'⟩ := e
    by_cases h : k' = k <;> simp [GoMap.set, h]

/-- An entry of a map after an assignment is the entry assigned or was there
before. -/
theorem GoMap.mem_set {V : Type} (m : GoMap V) (k : Str) (v : V) (e : Str × V)
    (h : e ∈ m.set k v) : e = (k, v) ∨ e ∈ m := by
  induction m with
  | nil =>
    simp only [GoMap.set, List.mem_singleton] at h
    exact Or.inl h
  | cons e' rest ih =>
    obtain ⟨k', v'⟩ := e'
    by_cases hk : k' = k
    · simp only [GoMap.set, hk, if_true, List.mem_cons] at h
      rcases h with h | h
      · exact Or.inl h
      · exact Or.inr (List.mem_cons_of_mem _ h)
    · simp only [GoMap.set, hk, if_false, List.mem_cons] at h
      rcases h with h | h
      · exact Or.inr (h ▸ List.mem_cons_self _ _)
      · rcases ih h with h' | h'
        · exact Or.inl h'
        · exact Or.inr (List.mem_cons_of_mem _ h')

theorem GoMap.mem_of_get? {V : Type} {m : GoMap V} {k : Str} {v : V} (h : m.get? k = some v) :
    (k, v) ∈ m := by
  induction m with
  | nil => simp [GoMap.get?] at h
  | cons e rest ih =>
    obtain ⟨k', v'⟩ := e
    by_cases hk : k' = k
    · subst hk
      simp only [GoMap.get?, if_true, Option.some.injEq] at h
      subst h
      exact List.mem_cons_self _ _
    · simp only [GoMap.get?, hk, if_false] at h
      exact List.mem_cons_of_mem _ (ih h)

theorem GoMap.get?_of_mem_keys {V : Type} {m : GoMap V} {k : Str} (h : k ∈ m.keys) :
    ∃ v, m.get? k = some v := by
  cases hg : m.get? k with
  | none => exact absurd h ((GoMap.get?_eq_none_iff m k).mp hg)
  | some v => exact ⟨v, rfl⟩

/-- Assigning to a key keeps the keys of a map distinct. -/
theorem GoMap.nodup_keys_set {V : Type} (m : GoMap V) (k : Str) (v : V) (h : m.keys.Nodup) :
    (m.set k v).keys.Nodup := by
  induction m with
  | nil => simp [GoMap.set, GoMap.keys]
  | cons e rest ih =>
    obtain ⟨k', v'⟩ := e
    simp only [GoMap.keys, List.map_cons, List.nodup_cons] at h
    by_cases hk : k' = k
    · subst hk
      simp only [GoMap.set, if_true, GoMap.keys, List.map_cons, List.nodup_cons]
      exact h
    · simp only [GoMap.set, hk, if_false, GoMap.keys, List.map_cons, List.nodup_cons]
      refine ⟨fun hmem => ?_, ih h.2⟩
      rcases (GoMap.mem_keys_set rest k v k').mp hmem with h' | h'
      · exact hk h'
      · exact h.1 h'

theorem insertAll_ne_nil (names : GoMap Unit) (xs : List Str) (h : xs ≠ []) :
    insertAll names xs ≠ [] := by
  induction xs generalizing names with
  | nil => exact absurd rfl h
  | cons a rest ih =>
    cases rest with
    | nil => exact GoMap.set_ne_nil names a ()
    | cons b rest' => exact ih (names.set a ()) (by simp)

/-- What the loop of `parseShowSpec` keeps and adds, besides `foldlM_parseArg`: the
keys of `loadFrom` stay distinct, the keys of `providerVars` are the provider
portions of the tokens with `"://"`, and no requested-name set is empty. -/
theorem foldlM_parseArg_keys (args : List Str) (spec0 spec : showSpec)
    (h : args.foldlM parseArg spec0 = some spec) :
    (spec0.loadFrom.keys.Nodup → spec.loadFrom.keys.Nodup) ∧
    (∀ k, k ∈ spec.providerVars.keys ↔ k ∈ spec0.providerVars.keys ∨
      ∃ t ∈ args, ∃ f, t = k ++ "://".toList ++ f ∧ ¬ "://".toList <:+: k) ∧
    ((∀ e ∈ spec0.providerVars, e.2 ≠ []) → ∀ e ∈ spec.providerVars, e.2 ≠ []) := by
  induction args generalizing spec0 with
  | nil =>
    simp only [List.foldlM_nil, Option.pure_def, Option.some.injEq] at h
    subst h
    exact ⟨id, by simp, id⟩
  | cons t rest ih =>
    rcases parseArg_cases spec0 t with ⟨hfree, hstep⟩ | ⟨p, f, ht, hp, hstep⟩
    · rw [List.foldlM_cons, hstep] at h
      obtain ⟨h1, h2, h3⟩ := ih _ h
      refine ⟨fun hnd => h1 (GoMap.nodup_keys_set _ _ _ hnd), fun k => ?_, h3⟩
      rw [h2 k]
      simp only [List.mem_cons, exists_eq_or_imp]
      constructor
      · rintro (hk | hk)
        · exact Or.inl hk
        · exact Or.inr (Or.inr hk)
      · rintro (hk | ⟨g, hg, -⟩ | hk)
        · exact Or.inl hk
        · exact absurd ⟨k, g, by rw [hg]⟩ hfree
        · exact Or.inr hk
    · rw [List.foldlM_cons, hstep] at h
      obtain ⟨h1, h2, h3⟩ := ih _ h
      refine ⟨fun hnd => h1 (GoMap.nodup_keys_set _ _ _ hnd), fun k => ?_, fun hne => h3 ?_⟩
      · rw [h2 k, GoMap.mem_keys_set]
        simp only [List.mem_cons, exists_eq_or_imp]
        constructor
        · rintro ((rfl | hk) | hk)
          · exact Or.inr (Or.inl ⟨f, ht, hp⟩)
          · exact Or.inl hk
          · exact Or.inr (Or.inr hk)
        · rintro (hk | ⟨g, hg, hfree⟩ | hk)
          · exact Or.inl (Or.inr hk)
          · exact Or.inl (Or.inl (cut_unique unbordered_scheme hfree hp (hg.symm.trans ht)).1)
          · exact Or.inr hk
      · intro e he
        rcases GoMap.mem_set _ _ _ e he with rfl | he'
        · exact insertAll_ne_nil _ _ (Split_ne_nil comma_ne_nil f)
        · exact hne e he'

/-! ## The last piece of a split -/

/-- The last piece of the cutting loop is a suffix of the string, and what stands
before it is nothing or ends in the separator. -/
theorem genSplit_getLast? (sep : Str) (n : Nat) (s : Str) :
    ∃ pre r, (genSplit sep n s).getLast? = some r ∧ s = pre ++ r ∧
      (pre = [] ∨ ∃ pre', pre = pre' ++ sep) := by
  induction n generalizing s with
  | zero => exact ⟨[], s, rfl, rfl, Or.inl rfl⟩
  | succ n ih =>
    rw [genSplit]
    split
    · exact ⟨[], s, rfl, rfl, Or.inl rfl⟩
    · rename_i m hm
      obtain ⟨pre, r, hlast, hcut, hpre⟩ := ih (s.drop (m + sep.length))
      refine ⟨s.take m ++ sep ++ pre, r, ?_, ?_, ?_⟩
      · cases hrest : genSplit sep n (List.drop (m + sep.length) s) with
        | nil => exact absurd hrest (genSplit_ne_nil sep n _)
        | cons b rest =>
          rw [hrest] at hlast
          rw [List.getLast?_cons_cons]
          exact hlast
      · rw [List.append_assoc (s.take m ++ sep), ← hcut]
        exact Index_cut hm
      · rcases hpre with rfl | ⟨pre', rfl⟩
        · exact Or.inr ⟨s.take m, by simp⟩
        · exact Or.inr ⟨s.take m ++ sep ++ pre', by simp⟩

/-- With the strip flag set `RemoveKeyPath` returns the last piece of the key cut
at `"/"`. -/
theorem RemoveKeyPath_true (key : Str) :
    RemoveKeyPath key true = (Split key "/".toList).getLast? := by
  simp only [RemoveKeyPath, if_true]
  exact (List.getLast?_eq_getElem? _).symm

/-! ## More facts about the resolution loop and the passes -/

/-- When every provider spec resolves without error, the resolution loop calls
`VariablesFromProviderSpec` on each of them in turn and reports no error. -/
theorem resolveLoop_all_ok (registry : GoMap Plugin) (specs : List Str) (st : Resolved)
    (h : ∀ p ∈ specs, ∃ r, VariablesFromProviderSpec registry p = some r ∧ r.err = none) :
    ∃ st', resolveLoop registry specs st = some st' ∧ st'.fatal = st.fatal ∧
      st'.resolved = st.resolved ++ specs := by
  induction specs generalizing st with
  | nil => exact ⟨st, rfl, rfl, by simp⟩
  | cons k rest ih =>
    obtain ⟨rk, hrk, hek⟩ := h k (List.mem_cons_self k rest)
    obtain ⟨st', hst', hfat, hres⟩ := ih
      { st with providedVars := st.providedVars.set k rk.vars,
                resolved := st.resolved ++ [k], calls := st.calls ++ rk.calls }
      (fun p hp => h p (List.mem_cons_of_mem k hp))
    refine ⟨st', ?_, hfat, ?_⟩
    · simp only [resolveLoop, hrk, Option.some_bind, Option.bind_eq_bind, hek]
      exact hst'
    · rw [hres]
      simp

/-- The lines of a loop hold, as one run of consecutive lines, the lines its body
writes for each element it visits. -/
theorem forEach_mem {α : Type} (body : α → Option (List Line)) (xs : List α)
    (out : List Line) (h : forEach body xs = some out) (x : α) (hx : x ∈ xs) :
    ∃ block, body x = some block ∧ block <:+: out := by
  induction xs generalizing out with
  | nil => cases hx
  | cons y rest ih =>
    cases hy : body y with
    | none => simp [forEach, hy] at h
    | some first =>
      cases hrest : forEach body rest with
      | none => simp [forEach, hy, hrest] at h
      | some tail =>
        simp only [forEach, hy, hrest, Option.some_bind, Option.bind_eq_bind, Option.pure_def,
          Option.some.injEq] at h
        subst h
        rcases List.mem_cons.mp hx with rfl | hx'
        · exact ⟨first, hy, (List.prefix_append first tail).isInfix⟩
        · obtain ⟨block, hblock, hin⟩ := ih tail hrest hx'
          exact ⟨block, hblock, hin.trans (List.suffix_append first tail).isInfix⟩

/-- The parse of a token list returns, and each of its sets is read off the
tokens: `loadFrom` holds the provider portions, `providersFull` the tokens without
`"://"`, `providerVars` the provider portions of the tokens with `"://"`, each with
the comma pieces of the filter portions of its tokens. -/
theorem parseShowSpec_sets (args : List Str) :
    ∃ spec, parseShowSpec args = some spec ∧
      (∀ k, k ∈ spec.loadFrom.keys ↔
        ∃ t ∈ args, ¬ "://".toList <:+: k ∧ (t = k ∨ ∃ f, t = k ++ "://".toList ++ f)) ∧
      (∀ k, k ∈ spec.providersFull.keys ↔ k ∈ args ∧ ¬ "://".toList <:+: k) ∧
      (∀ k, k ∈ spec.providerVars.keys ↔
        ∃ t ∈ args, ∃ f, t = k ++ "://".toList ++ f ∧ ¬ "://".toList <:+: k) ∧
      (∀ P n, n ∈ ((spec.providerVars.get? P).getD []).keys ↔
        ∃ t ∈ args, ∃ f, t = P ++ "://".toList ++ f ∧ ¬ "://".toList <:+: P ∧
          n ∈ Split f ",".toList) ∧
      spec.loadFrom.keys.Nodup ∧ (∀ e ∈ spec.providerVars, e.2 ≠ []) := by
  obtain ⟨spec, hspec, hload, hfull, hnames⟩ :=
    foldlM_parseArg args { loadFrom := [], providersFull := [], providerVars := [] }
  obtain ⟨hnd, hkeys, hne⟩ := foldlM_parseArg_keys args _ spec hspec
  refine ⟨spec, hspec, fun k => ?_, fun k => ?_, fun k => ?_, fun P n => ?_, ?_, ?_⟩
  · rw [hload k]; simp [GoMap.keys]
  · rw [hfull k]; simp [GoMap.keys]
  · rw [hkeys k]; simp [GoMap.keys]
  · rw [hnames P n]; simp [GoMap.get?, GoMap.keys]
  · exact hnd (by simp [GoMap.keys])
  · exact hne (by simp)

/-- A run that ends without error has parsed the tokens, resolved every provider
spec of `loadFrom` without error into `providedVars`, and written the full-mode
pass followed by the filtered-mode pass. -/
theorem showPipeline_ok_run (flags : Flags) (ord : RangeOrder) (registry : GoMap Plugin)
    (args : List Str) (out : Outcome) (hord : ord.Fair)
    (hout : showPipeline flags ord registry args = some out) (hfatal : out.fatal = none) :
    ∃ spec providedVars full, parseShowSpec args = some spec ∧
      (∀ p ∈ spec.loadFrom.keys, ∃ r, VariablesFromProviderSpec registry p = some r ∧
        r.err = none ∧ providedVars.get? p = some r.vars) ∧
      fullPass flags ord (if flags.showExport then "export ".toList else []) spec
        providedVars = some full ∧
      out.stdout = full ++
        filteredPass flags ord (if flags.showExport then "export ".toList else []) spec
          providedVars := by
  obtain ⟨spec, hspec, -, -, -⟩ :=
    foldlM_parseArg args { loadFrom := [], providersFull := [], providerVars := [] }
  obtain ⟨st, hst⟩ := resolveLoop_returns registry (ord.loadFrom spec.loadFrom).keys
    { providedVars := [], resolved := [], calls := [], fatal := none }
  simp only [showPipeline, parseShowSpec, hspec, hst, Option.some_bind,
    Option.bind_eq_bind] at hout
  cases hf : st.fatal with
  | some e =>
    simp only [hf] at hout
    cases hout
    cases hfatal
  | none =>
    simp only [hf] at hout
    obtain ⟨blocks, hblocks, -⟩ := forEach_blocks
      (fun entry : Str × Unit => fullBlock flags ord
        (if flags.showExport then "export ".toList else []) st.providedVars entry.1)
      (ord.providersFull spec.providersFull)
      (fun entry _ => fullBlock_returns flags ord _ st.providedVars entry.1)
    have hfull : fullPass flags ord (if flags.showExport then "export ".toList else []) spec
        st.providedVars = some blocks.flatten := hblocks
    simp only [hfull, Option.some_bind, Option.bind_eq_bind] at hout
    cases hout
    refine ⟨spec, st.providedVars, blocks.flatten, hspec, ?_, hfull, rfl⟩
    intro p hp
    exact (resolveLoop_ok registry _ _ st hst rfl hf).1 p
      (((hord.1 spec.loadFrom).map Prod.fst).mem_iff.mpr hp)

/-! ## The lines of the filtered-mode pass -/

theorem GoMap.get?_of_mem_nodup {V : Type} {m : GoMap V} {k : Str} {v : V}
    (hnd : m.keys.Nodup) (h : (k, v) ∈ m) : m.get? k = some v := by
  induction m with
  | nil => cases h
  | cons e rest ih =>
    obtain ⟨k', v'⟩ := e
    simp only [GoMap.keys, List.map_cons, List.nodup_cons] at hnd
    rcases List.mem_cons.mp h with heq | hrest
    · cases heq
      simp [GoMap.get?]
    · have hne : k' ≠ k := by
        intro hk
        exact hnd.1 (hk ▸ List.mem_map.mpr ⟨(k, v), hrest, rfl⟩)
      simp only [GoMap.get?, hne, if_false]
      exact ih hnd.2 hrest

/-- The keys of `providerVars` stay distinct through the loop of `parseShowSpec`. -/
theorem foldlM_parseArg_vars_nodup (args : List Str) (spec0 spec : showSpec)
    (h : args.foldlM parseArg spec0 = some spec) (hnd : spec0.providerVars.keys.Nodup) :
    spec.providerVars.keys.Nodup := by
  induction args generalizing spec0 with
  | nil =>
    simp only [List.foldlM_nil, Option.pure_def, Option.some.injEq] at h
    subst h
    exact hnd
  | cons t rest ih =>
    rcases parseArg_cases spec0 t with ⟨-, hstep⟩ | ⟨p, f, -, -, hstep⟩
    · rw [List.foldlM_cons, hstep] at h
      exact ih _ h hnd
    · rw [List.foldlM_cons, hstep] at h
      exact ih _ h (GoMap.nodup_keys_set _ _ _ hnd)

/-- The loop body of the filtered-mode pass writes one line for a requested
name: the marker when the name is absent from the mapping, else the value or the
assignment of the variable. -/
theorem filteredVar_cases (flags : Flags) (exportPrefix : Str) (definedVars : GoMap Str)
    (k : Str) :
    (definedVars.get? k = none ∧
      filteredVar flags exportPrefix definedVars k =
        [⟨.undefined, "# UNDEFINED: ".toList ++ k⟩]) ∨
    (∃ v, definedVars.get? k = some v ∧
      filteredVar flags exportPrefix definedVars k =
        [if flags.showValue then ⟨.value, AddValueQuotes v flags.showQuotes⟩
         else ⟨.assignment,
           exportPrefix ++ k ++ "=".toList ++ AddValueQuotes v flags.showQuotes⟩]) := by
  cases h : definedVars.get? k with
  | none => exact Or.inl ⟨rfl, by simp only [filteredVar, h]⟩
  | some v =>
    refine Or.inr ⟨v, rfl, ?_⟩
    cases hv : flags.showValue <;> simp [filteredVar, h, hv]

theorem filteredHeader_kind (flags : Flags) (providerSpec : Str) (line : Line)
    (h : line ∈ filteredHeader flags providerSpec) : line.kind = .header := by
  cases hraw : flags.showRaw <;> simp [filteredHeader, hraw] at h
  rw [h]

theorem fullHeader_kind (flags : Flags) (providerSpec : Str) (line : Line)
    (h : line ∈ fullHeader flags providerSpec) : line.kind = .header := by
  cases hraw : flags.showRaw <;> simp [fullHeader, hraw] at h
  rw [h]

/-- Every line of a loop was written by its body on one of the elements. -/
theorem forEach_mem_out {α : Type} (body : α → Option (List Line)) (xs : List α)
    (out : List Line) (h : forEach body xs = some out) (line : Line) (hl : line ∈ out) :
    ∃ x ∈ xs, ∃ block, body x = some block ∧ line ∈ block := by
  induction xs generalizing out with
  | nil =>
    simp only [forEach, Option.some.injEq] at h
    subst h
    cases hl
  | cons y rest ih =>
    cases hy : body y with
    | none => simp [forEach, hy] at h
    | some first =>
      cases hrest : forEach body rest with
      | none => simp [forEach, hy, hrest] at h
      | some tail =>
        simp only [forEach, hy, hrest, Option.some_bind, Option.bind_eq_bind, Option.pure_def,
          Option.some.injEq] at h
        subst h
        rcases List.mem_append.mp hl with hf | ht
        · exact ⟨y, List.mem_cons_self y rest, first, hy, hf⟩
        · obtain ⟨x, hx, block, hb, hlb⟩ := ih tail hrest ht
          exact ⟨x, List.mem_cons_of_mem y hx, block, hb, hlb⟩

theorem forall₂_mem_right {α β : Type} {R : α → β → Prop} {xs : List α} {ys : List β}
    (h : List.Forall₂ R xs ys) {y : β} (hy : y ∈ ys) : ∃ x ∈ xs, R x y := by
  induction h with
  | nil => cases hy
  | cons hR _ ih =>
    rcases List.mem_cons.mp hy with rfl | hy'
    · exact ⟨_, List.mem_cons_self _ _, hR⟩
    · obtain ⟨x, hx, hrest⟩ := ih hy'
      exact ⟨x, List.mem_cons_of_mem _ hx, hrest⟩

/-- The full-mode pass writes no UNDEFINED marker. -/
theorem fullPass_kind (flags : Flags) (ord : RangeOrder) (exportPrefix : Str)
    (spec : showSpec) (providedVars : GoMap (GoMap Str)) (full : List Line)
    (h : fullPass flags ord exportPrefix spec providedVars = some full) (line : Line)
    (hl : line ∈ full) : line.kind ≠ .undefined := by
  obtain ⟨entry, -, block, hblock, hlb⟩ := forEach_mem_out _ _ _ h line hl
  obtain ⟨body, hbody, hall⟩ := fullBlock_lines flags ord exportPrefix providedVars entry.1
  have hsome : some block = some (fullHeader flags entry.1 ++ body) := hblock.symm.trans hbody
  cases hsome
  rcases List.mem_append.mp hlb with hh | hb
  · rw [fullHeader_kind flags entry.1 line hh]
    simp
  · obtain ⟨kv, -, key, -, hline⟩ := forall₂_mem_right hall hb
    rw [hline]
    cases flags.showValue <;> cases flags.showName <;> simp

/-- The lines the loop over the requested names writes, in the order of the
visit: one line per name, the marker for an absent name and the value or the
assignment for a present one. -/
theorem filteredVars_lines (flags : Flags) (exportPrefix : Str) (definedVars : GoMap Str)
    (xs : GoMap Unit) :
    List.Forall₂
      (fun entry line =>
        (definedVars.get? entry.1 = none ∧
          line = ⟨.undefined, "# UNDEFINED: ".toList ++ entry.1⟩) ∨
        (∃ v, definedVars.get? entry.1 = some v ∧
          line =
            if flags.showValue then ⟨.value, AddValueQuotes v flags.showQuotes⟩
            else ⟨.assignment,
              exportPrefix ++ entry.1 ++ "=".toList ++ AddValueQuotes v flags.showQuotes⟩))
      xs ((xs.map (fun entry => filteredVar flags exportPrefix definedVars entry.1)).flatten) := by
  induction xs with
  | nil => exact List.Forall₂.nil
  | cons e rest ih =>
    rcases filteredVar_cases flags exportPrefix definedVars e.1 with ⟨hnone, hline⟩ |
      ⟨v, hsome, hline⟩
    · rw [List.map_cons, List.flatten_cons, hline]
      exact List.Forall₂.cons (Or.inl ⟨hnone, rfl⟩) ih
    · rw [List.map_cons, List.flatten_cons, hline]
      exact List.Forall₂.cons (Or.inr ⟨v, hsome, rfl⟩) ih

/-- Every line of the filtered-mode pass written by the UNDEFINED statement is
the marker of a name that is requested from a provider spec of `providerVars`
and absent from the mapping resolved for that provider spec. -/
theorem filteredPass_undefined_line (flags : Flags) (ord : RangeOrder) (exportPrefix : Str)
    (spec : showSpec) (providedVars : GoMap (GoMap Str)) (hord : ord.Fair) (line : Line)
    (hl : line ∈ filteredPass flags ord exportPrefix spec providedVars)
    (hkind : line.kind = .undefined) :
    ∃ P queried k, (P, queried) ∈ spec.providerVars ∧ k ∈ queried.keys ∧
      ((providedVars.get? P).getD []).get? k = none ∧
      line = ⟨.undefined, "# UNDEFINED: ".toList ++ k⟩ := by
  obtain ⟨block, hblock, hlb⟩ := List.mem_flatten.mp hl
  obtain ⟨entry, hentry, rfl⟩ := List.mem_map.mp hblock
  obtain ⟨P, queried⟩ := entry
  have hmem : (P, queried) ∈ spec.providerVars :=
    (hord.2.2.2.1 spec.providerVars).mem_iff.mp hentry
  rcases List.mem_append.mp hlb with hh | hb
  · rw [filteredHeader_kind flags P line hh] at hkind
    cases hkind
  · obtain ⟨lines, hlines, hlv⟩ := List.mem_flatten.mp hb
    obtain ⟨e, he, rfl⟩ := List.mem_map.mp hlines
    have heq : e ∈ queried := (hord.2.2.2.2 P queried).mem_iff.mp he
    rcases filteredVar_cases flags exportPrefix ((providedVars.get? P).getD []) e.1 with
      ⟨hnone, hline⟩ | ⟨v, -, hline⟩
    · rw [hline, List.mem_singleton] at hlv
      exact ⟨P, queried, e.1, hmem, List.mem_map.mpr ⟨e, heq, rfl⟩, hnone, hlv⟩
    · rw [hline, List.mem_singleton] at hlv
      rw [hlv] at hkind
      cases hv : flags.showValue <;> simp [hv] at hkind

/-- The filtered-mode pass holds the lines the loop body writes for each
requested name of each provider spec of `providerVars`. -/
theorem filteredPass_mem (flags : Flags) (ord : RangeOrder) (exportPrefix : Str)
    (spec : showSpec) (providedVars : GoMap (GoMap Str)) (hord : ord.Fair) (P : Str)
    (queried : GoMap Unit) (k : Str) (hP : (P, queried) ∈ spec.providerVars)
    (hk : k ∈ queried.keys) (line : Line)
    (hline : line ∈ filteredVar flags exportPrefix ((providedVars.get? P).getD []) k) :
    line ∈ filteredPass flags ord exportPrefix spec providedVars := by
  obtain ⟨e, he, rfl⟩ := List.mem_map.mp hk
  have hvisit : e ∈ ord.queriedVars P queried := (hord.2.2.2.2 P queried).mem_iff.mpr he
  have hPvisit : (P, queried) ∈ ord.providerVars spec.providerVars :=
    (hord.2.2.2.1 spec.providerVars).mem_iff.mpr hP
  refine List.mem_flatten.mpr ⟨_, List.mem_map.mpr ⟨(P, queried), hPvisit, rfl⟩, ?_⟩
  refine List.mem_append.mpr (Or.inr ?_)
  exact List.mem_flatten.mpr ⟨_, List.mem_map.mpr ⟨e, hvisit, rfl⟩, hline⟩

/-- The text of the line written for a present name is the text of the marker of
that name only when the value is printed alone, unquoted, and is that text. -/
theorem rendering_text_eq_marker (flags : Flags) (exportPrefix k v : Str)
    (h : (if flags.showValue then (⟨.value, AddValueQuotes v flags.showQuotes⟩ : Line)
          else ⟨.assignment,
            exportPrefix ++ k ++ "=".toList ++ AddValueQuotes v flags.showQuotes⟩).text =
        "# UNDEFINED: ".toList ++ k) :
    flags.showValue = true ∧ flags.showQuotes = false ∧ v = "# UNDEFINED: ".toList ++ k := by
  cases hv : flags.showValue with
  | false =>
    exfalso
    simp only [hv, Bool.false_eq_true, if_false] at h
    have hcount := congrArg (List.count '=') h
    have h1 : List.count '=' "=".toList = 1 := by decide
    have h2 : List.count '=' "# UNDEFINED: ".toList = 0 := by decide
    simp only [List.count_append, h1, h2] at hcount
    omega
  | true =>
    simp only [hv, if_true] at h
    cases hq : flags.showQuotes with
    | false =>
      simp only [AddValueQuotes, hq, Bool.false_eq_true, if_false] at h
      exact ⟨rfl, rfl, h⟩
    | true =>
      exfalso
      simp only [AddValueQuotes, hq, if_true] at h
      have hhead := congrArg List.head? h
      simp [String.toList] at hhead

/-! ## The parser -/

/-- C1: a token that contains `"://"` has exactly one cut `p ++ "://" ++ f` with
no `"://"` in `p`, the cut at the first occurrence.  Parsing the token alone
registers the key `p` and nothing else, `p` is not registered as Full, and the
requested names of `p` are the pieces of `f` split on `","`, with `f` kept as it
is. -/
theorem parseShowSpec_cuts_at_first_scheme (t : Str) (ht : "://".toList <:+: t) :
    ∃ p f, t = p ++ "://".toList ++ f ∧ ¬ "://".toList <:+: p ∧
      (∀ q g, t = q ++ "://".toList ++ g → ¬ "://".toList <:+: q → q = p ∧ g = f) ∧
      parseShowSpec [t] = some
        { loadFrom := [(p, ())], providersFull := [],
          providerVars := [(p, insertAll [] (Split f ",".toList))] } ∧
      (∀ n, n ∈ (insertAll [] (Split f ",".toList)).keys ↔ n ∈ Split f ",".toList) := by
  rcases cut_cases scheme_ne_nil t with h | ⟨p, f, hcut, hp⟩
  · exact absurd ht h
  · refine ⟨p, f, hcut, hp, ?_, ?_, ?_⟩
    · intro q g hq hfree
      exact cut_unique unbordered_scheme hfree hp (hq.symm.trans hcut)
    · rw [parseShowSpec_singleton, hcut, parseArg_filtered _ p f hp]
      rfl
    · intro n
      rw [mem_keys_insertAll]
      simp [GoMap.keys]

/-- The token `a://b://c` is cut into the provider `a` and the single requested
name `b://c`. -/
theorem parseShowSpec_cuts_at_first_scheme_witness :
    "://".toList <:+: "a://b://c".toList ∧
    ∃ p f, "a://b://c".toList = p ++ "://".toList ++ f ∧ ¬ "://".toList <:+: p ∧
      (∀ q g, "a://b://c".toList = q ++ "://".toList ++ g → ¬ "://".toList <:+: q →
        q = p ∧ g = f) ∧
      parseShowSpec ["a://b://c".toList] = some
        { loadFrom := [(p, ())], providersFull := [],
          providerVars := [(p, insertAll [] (Split f ",".toList))] } ∧
      (∀ n, n ∈ (insertAll [] (Split f ",".toList)).keys ↔ n ∈ Split f ",".toList) :=
  ⟨by decide, parseShowSpec_cuts_at_first_scheme "a://b://c".toList (by decide)⟩

/-- C2: for every token list the parse succeeds, and the requested names it
records for a provider portion `P` are exactly the names `n` for which some token
of the list is `P ++ "://" ++ f` with no `"://"` in `P` and `n` a piece of `f`
split on `","`.  The single token `P://A,B,C` gives `P` the requested names `A`,
`B` and `C`, leaves `providersFull` empty and puts `P` alone into `loadFrom`. -/
theorem parseShowSpec_requested_names :
    (∀ args : List Str, ∃ spec, parseShowSpec args = some spec ∧
      ∀ P n, n ∈ ((spec.providerVars.get? P).getD []).keys ↔
        ∃ t ∈ args, ∃ f, t = P ++ "://".toList ++ f ∧ ¬ "://".toList <:+: P ∧
          n ∈ Split f ",".toList) ∧
    (∀ P A B C : Str, ¬ "://".toList <:+: P → ',' ∉ A → ',' ∉ B → ',' ∉ C →
      parseShowSpec [P ++ "://".toList ++ (A ++ ",".toList ++ (B ++ ",".toList ++ C))] = some
        { loadFrom := [(P, ())], providersFull := [],
          providerVars := [(P, insertAll [] [A, B, C])] } ∧
      ∀ n, n ∈ (insertAll [] [A, B, C]).keys ↔ n = A ∨ n = B ∨ n = C) := by
  constructor
  · intro args
    obtain ⟨spec, hspec, -, -, hvars⟩ :=
      foldlM_parseArg args { loadFrom := [], providersFull := [], providerVars := [] }
    refine ⟨spec, hspec, fun P n => ?_⟩
    rw [hvars P n]
    simp [GoMap.get?, GoMap.keys]
  · intro P A B C hP hA hB hC
    have hfree : ∀ X : Str, ',' ∉ X → ¬ ",".toList <:+: X :=
      fun X hX h => hX ((singleton_infix_iff ',' X).mp h)
    have hsplit : Split (A ++ ",".toList ++ (B ++ ",".toList ++ C)) ",".toList = [A, B, C] := by
      rw [Split_append comma_ne_nil (unbordered_singleton ',') A _ (hfree A hA),
        Split_append comma_ne_nil (unbordered_singleton ',') B _ (hfree B hB),
        Split_free comma_ne_nil C (hfree C hC)]
    constructor
    · rw [parseShowSpec_singleton, parseArg_filtered _ P _ hP, hsplit]
      rfl
    · intro n
      rw [mem_keys_insertAll]
      simp [GoMap.keys]

/-- The token `env://HOME,SHELL,PATH` gives `env` the three requested names. -/
theorem parseShowSpec_requested_names_witness :
    parseShowSpec ["env://HOME,SHELL,PATH".toList] = some
        { loadFrom := [("env".toList, ())], providersFull := [],
          providerVars := [("env".toList,
            [("HOME".toList, ()), ("SHELL".toList, ()), ("PATH".toList, ())])] } ∧
      ∀ n, n ∈ (insertAll [] ["HOME".toList, "SHELL".toList, "PATH".toList]).keys ↔
        n = "HOME".toList ∨ n = "SHELL".toList ∨ n = "PATH".toList :=
  parseShowSpec_requested_names.2 "env".toList "HOME".toList "SHELL".toList "PATH".toList
    (by decide) (by decide) (by decide) (by decide)

/-- C3: a token without `"://"` parsed alone is registered as Full and in
`loadFrom`, each with that one key, and `providerVars` stays empty. -/
theorem parseShowSpec_full_token (t : Str) (ht : ¬ "://".toList <:+: t) :
    parseShowSpec [t] = some
      { loadFrom := [(t, ())], providersFull := [(t, ())], providerVars := [] } := by
  rw [parseShowSpec_singleton, parseArg_full _ t ht]
  rfl

/-- The token `env` is registered as Full. -/
theorem parseShowSpec_full_token_witness :
    ¬ "://".toList <:+: "env".toList ∧
    parseShowSpec ["env".toList] = some
      { loadFrom := [("env".toList, ())], providersFull := [("env".toList, ())],
        providerVars := [] } :=
  ⟨by decide, parseShowSpec_full_token "env".toList (by decide)⟩

/-! ## The resolver -/

/-- C4: `VariablesFromProviderSpec` cuts the provider spec at the first `"+"`.
For a registered name `n` without `"+"`, the spec `n ++ "+" ++ a` returns what the
provider `n` returns on the argument string `a`, taken as it is, and calls that
provider once on `a`; the spec `n` alone calls it on the empty string.  So
`name+arg1+arg2` hands `arg1+arg2` to the provider `name`. -/
theorem VariablesFromProviderSpec_cuts_at_first_plus (registry : GoMap Plugin) (n a : Str)
    (plugin : Plugin) (hn : '+' ∉ n) (hreg : registry.get? n = some plugin) :
    VariablesFromProviderSpec registry (n ++ "+".toList ++ a) = some
      { vars := (plugin.Provider a).1, err := (plugin.Provider a).2, calls := [(n, a)] } ∧
    VariablesFromProviderSpec registry n = some
      { vars := (plugin.Provider []).1, err := (plugin.Provider []).2, calls := [(n, [])] } := by
  constructor
  · rw [VariablesFromProviderSpec_args registry n a hn]
    simp only [lookupAndCall, hreg]
  · rw [VariablesFromProviderSpec_plain registry n hn]
    simp only [lookupAndCall, hreg]

/-- The spec `name+arg1+arg2` hands `arg1+arg2` to the provider `name`. -/
theorem VariablesFromProviderSpec_cuts_at_first_plus_witness :
    VariablesFromProviderSpec echoRegistry "name+arg1+arg2".toList = some
      { vars := [("ARGS".toList, "arg1+arg2".toList)], err := none,
        calls := [("name".toList, "arg1+arg2".toList)] } ∧
    VariablesFromProviderSpec echoRegistry "name".toList = some
      { vars := [("ARGS".toList, [])], err := none, calls := [("name".toList, [])] } :=
  VariablesFromProviderSpec_cuts_at_first_plus echoRegistry "name".toList "arg1+arg2".toList
    { Help := "echo".toList, Provider := fun args => ([("ARGS".toList, args)], none) }
    (by decide) rfl

/-- C5: every provider spec has a name, the text before its first `"+"`.  When
the name is not a key of the registry, `VariablesFromProviderSpec` returns the
empty mapping with the error `unregistered provider: <name>` and calls no
provider.  When the name is registered, the mapping and the error returned are
the ones the provider returned on the argument string, the provider is called
once, and no error is made up by the function itself. -/
theorem VariablesFromProviderSpec_unregistered :
    (∀ s : Str, ∃ n a, '+' ∉ n ∧ (s = n ∨ s = n ++ "+".toList ++ a)) ∧
    (∀ (registry : GoMap Plugin) (n a : Str), '+' ∉ n →
      (registry.get? n = none →
        VariablesFromProviderSpec registry (n ++ "+".toList ++ a) = some
          { vars := [], err := some ("unregistered provider: ".toList ++ n), calls := [] } ∧
        VariablesFromProviderSpec registry n = some
          { vars := [], err := some ("unregistered provider: ".toList ++ n), calls := [] }) ∧
      (∀ plugin, registry.get? n = some plugin →
        VariablesFromProviderSpec registry (n ++ "+".toList ++ a) = some
          { vars := (plugin.Provider a).1, err := (plugin.Provider a).2, calls := [(n, a)] } ∧
        VariablesFromProviderSpec registry n = some
          { vars := (plugin.Provider []).1, err := (plugin.Provider []).2,
            calls := [(n, [])] })) := by
  refine ⟨providerSpec_cases, fun registry n a hn => ⟨fun hreg => ?_, fun plugin hreg => ?_⟩⟩
  · rw [VariablesFromProviderSpec_args registry n a hn,
      VariablesFromProviderSpec_plain registry n hn]
    simp only [lookupAndCall, hreg, and_self]
  · rw [VariablesFromProviderSpec_args registry n a hn,
      VariablesFromProviderSpec_plain registry n hn]
    simp only [lookupAndCall, hreg, and_self]

/-- The specs `nope+x` and `nope` fail on the registry that only knows `env`. -/
theorem VariablesFromProviderSpec_unregistered_witness :
    VariablesFromProviderSpec envRegistry "nope+x".toList = some
      { vars := [], err := some "unregistered provider: nope".toList, calls := [] } ∧
    VariablesFromProviderSpec envRegistry "nope".toList = some
      { vars := [], err := some "unregistered provider: nope".toList, calls := [] } :=
  (VariablesFromProviderSpec_unregistered.2 envRegistry "nope".toList "x".toList
    (by decide)).1 rfl

/-! ## The pipeline -/

/-- C6: fail-fast.  When a token of the list has a provider portion `p` (the text
before its first `"://"`) whose resolution returns an error, the pipeline
returns, writes nothing to standard output whatever the flags, the range order
and the other tokens are, and ends in `log.Fatal` with the error message of a
provider portion of the tokens whose resolution failed. -/
theorem showPipeline_fail_fast (flags : Flags) (ord : RangeOrder) (registry : GoMap Plugin)
    (args : List Str) (hord : ord.Fair) (t p : Str) (ht : t ∈ args)
    (hp : ¬ "://".toList <:+: p) (hcut : t = p ∨ ∃ f, t = p ++ "://".toList ++ f)
    (r : Resolution) (hr : VariablesFromProviderSpec registry p = some r)
    (hfail : r.err ≠ none) :
    ∃ out, showPipeline flags ord registry args = some out ∧ out.stdout = [] ∧
      ∃ u ∈ args, ∃ q, ¬ "://".toList <:+: q ∧ (u = q ∨ ∃ f, u = q ++ "://".toList ++ f) ∧
        ∃ r' e, VariablesFromProviderSpec registry q = some r' ∧ r'.err = some e ∧
          out.fatal = some e := by
  obtain ⟨spec, hspec, hload, -, -⟩ :=
    foldlM_parseArg args { loadFrom := [], providersFull := [], providerVars := [] }
  have hvisit : ∀ k, k ∈ (ord.loadFrom spec.loadFrom).keys ↔ k ∈ spec.loadFrom.keys :=
    fun k => ((hord.1 spec.loadFrom).map Prod.fst).mem_iff
  have hpmem : p ∈ (ord.loadFrom spec.loadFrom).keys :=
    (hvisit p).mpr ((hload p).mpr (Or.inr ⟨t, ht, hp, hcut⟩))
  obtain ⟨st, hst, q, hq, r', e, hq1, hq2, hq3⟩ := resolveLoop_fails registry _
    { providedVars := [], resolved := [], calls := [], fatal := none } p hpmem r hr hfail
  refine ⟨{ stdout := [], fatal := some e, resolved := st.resolved, calls := st.calls },
    ?_, rfl, ?_⟩
  · simp only [showPipeline, parseShowSpec, hspec, hst, Option.some_bind, Option.bind_eq_bind,
      hq3]
    rfl
  · rcases (hload q).mp ((hvisit q).mp hq) with h | ⟨u, hu, hfree, hucut⟩
    · simp [GoMap.keys] at h
    · exact ⟨u, hu, q, hfree, hucut, r', e, hq1, hq2, rfl⟩

/-- With the tokens `env` and `nope://X`, nothing is written, not even the block
of `env`, and the run ends with `unregistered provider: nope`. -/
theorem showPipeline_fail_fast_witness :
    ∃ out, showPipeline noFlags RangeOrder.insertion envRegistry
        ["env".toList, "nope://X".toList] = some out ∧ out.stdout = [] ∧
      ∃ u ∈ ["env".toList, "nope://X".toList], ∃ q, ¬ "://".toList <:+: q ∧
        (u = q ∨ ∃ f, u = q ++ "://".toList ++ f) ∧
        ∃ r' e, VariablesFromProviderSpec envRegistry q = some r' ∧ r'.err = some e ∧
          out.fatal = some e :=
  showPipeline_fail_fast noFlags RangeOrder.insertion envRegistry
    ["env".toList, "nope://X".toList] insertion_fair "nope://X".toList "nope".toList
    (by decide) (by decide) (Or.inr ⟨"X".toList, rfl⟩)
    { vars := [], err := some "unregistered provider: nope".toList, calls := [] } rfl
    (by simp)

/-- C7: the filtered-mode pass, for every range order that visits each entry
once and every setting of the flags.  The block of a provider spec is its
optional header followed by a permutation of one line per requested name: the
line `# UNDEFINED: <name>`, and no assignment, value or name line, for a name
absent from the mapping resolved for the provider spec, and the value or the
assignment of the variable for a name that is present.  So the pass holds the
marker of every absent requested name, and every line written by the UNDEFINED
statement is the marker of a requested name that is absent: none is written for
a present name, whose line can have the text of the marker only when its value,
printed alone and unquoted, is that text.  End to end, a run without error puts
the marker of every absent requested name on standard output, and every
UNDEFINED line on standard output is the marker of a name that a token requests
and that the resolution of its provider portion did not return. -/
theorem filteredPass_undefined :
    (∀ (flags : Flags) (ord : RangeOrder) (exportPrefix : Str)
        (providedVars : GoMap (GoMap Str)) (providerSpec : Str) (queriedVars : GoMap Unit),
      ord.Fair →
      ∃ body lines,
        filteredBlock flags ord exportPrefix providedVars providerSpec queriedVars =
          filteredHeader flags providerSpec ++ body ∧
        body.Perm lines ∧
        List.Forall₂
          (fun entry line =>
            (((providedVars.get? providerSpec).getD []).get? entry.1 = none ∧
              line = ⟨.undefined, "# UNDEFINED: ".toList ++ entry.1⟩) ∨
            (∃ v, ((providedVars.get? providerSpec).getD []).get? entry.1 = some v ∧
              line =
                if flags.showValue then ⟨.value, AddValueQuotes v flags.showQuotes⟩
                else ⟨.assignment, exportPrefix ++ entry.1 ++ "=".toList ++
                  AddValueQuotes v flags.showQuotes⟩))
          queriedVars lines) ∧
    (∀ (flags : Flags) (ord : RangeOrder) (exportPrefix : Str) (spec : showSpec)
        (providedVars : GoMap (GoMap Str)) (P : Str) (queried : GoMap Unit) (k : Str),
      ord.Fair → (P, queried) ∈ spec.providerVars → k ∈ queried.keys →
      ((providedVars.get? P).getD []).get? k = none →
      (⟨.undefined, "# UNDEFINED: ".toList ++ k⟩ : Line) ∈
        filteredPass flags ord exportPrefix spec providedVars) ∧
    (∀ (flags : Flags) (ord : RangeOrder) (exportPrefix : Str) (spec : showSpec)
        (providedVars : GoMap (GoMap Str)) (line : Line),
      ord.Fair → line ∈ filteredPass flags ord exportPrefix spec providedVars →
      line.kind = .undefined →
      ∃ P queried k, (P, queried) ∈ spec.providerVars ∧ k ∈ queried.keys ∧
        ((providedVars.get? P).getD []).get? k = none ∧
        line = ⟨.undefined, "# UNDEFINED: ".toList ++ k⟩) ∧
    (∀ (flags : Flags) (exportPrefix k v : Str),
      (if flags.showValue then (⟨.value, AddValueQuotes v flags.showQuotes⟩ : Line)
        else ⟨.assignment,
          exportPrefix ++ k ++ "=".toList ++ AddValueQuotes v flags.showQuotes⟩).text =
        "# UNDEFINED: ".toList ++ k →
      flags.showValue = true ∧ flags.showQuotes = false ∧
        v = "# UNDEFINED: ".toList ++ k) ∧
    (∀ (flags : Flags) (ord : RangeOrder) (registry : GoMap Plugin) (args : List Str)
        (out : Outcome), ord.Fair →
      showPipeline flags ord registry args = some out → out.fatal = none →
      (∀ (P f k : Str) (r : Resolution), P ++ "://".toList ++ f ∈ args →
        ¬ "://".toList <:+: P → k ∈ Split f ",".toList →
        VariablesFromProviderSpec registry P = some r → r.vars.get? k = none →
        (⟨.undefined, "# UNDEFINED: ".toList ++ k⟩ : Line) ∈ out.stdout) ∧
      (∀ line ∈ out.stdout, line.kind = .undefined →
        ∃ (P f k : Str) (r : Resolution), P ++ "://".toList ++ f ∈ args ∧
          ¬ "://".toList <:+: P ∧ k ∈ Split f ",".toList ∧
          VariablesFromProviderSpec registry P = some r ∧ r.vars.get? k = none ∧
          line = ⟨.undefined, "# UNDEFINED: ".toList ++ k⟩)) := by
  refine ⟨?_, ?_, ?_, rendering_text_eq_marker, ?_⟩
  · intro flags ord exportPrefix providedVars providerSpec queriedVars hord
    obtain ⟨lines, hlines, hperm⟩ := List.perm_comp_forall₂
      (hord.2.2.2.2 providerSpec queriedVars).symm
      (filteredVars_lines flags exportPrefix ((providedVars.get? providerSpec).getD [])
        (ord.queriedVars providerSpec queriedVars))
    exact ⟨_, lines, rfl, hperm.symm, hlines⟩
  · intro flags ord exportPrefix spec providedVars P queried k hord hP hk hnone
    refine filteredPass_mem flags ord exportPrefix spec providedVars hord P queried k hP hk _ ?_
    simp only [filteredVar, hnone, List.mem_singleton]
  · intro flags ord exportPrefix spec providedVars line hord hl hkind
    exact filteredPass_undefined_line flags ord exportPrefix spec providedVars hord line hl hkind
  · intro flags ord registry args out hord hout hfatal
    obtain ⟨spec, providedVars, full, hspec, hres, hfull, hstdout⟩ :=
      showPipeline_ok_run flags ord registry args out hord hout hfatal
    obtain ⟨spec', hspec', hload, -, hkeys, hnames, -, -⟩ := parseShowSpec_sets args
    rw [hspec] at hspec'
    cases hspec'
    have hvnd : spec.providerVars.keys.Nodup :=
      foldlM_parseArg_vars_nodup args _ spec hspec (by simp [GoMap.keys])
    have hdefined : ∀ (P f : Str) (r : Resolution), P ++ "://".toList ++ f ∈ args →
        ¬ "://".toList <:+: P → VariablesFromProviderSpec registry P = some r →
        (providedVars.get? P).getD [] = r.vars := by
      intro P f r ht hP hr
      obtain ⟨r', hr', -, hget⟩ := hres P ((hload P).mpr ⟨_, ht, hP, Or.inr ⟨f, rfl⟩⟩)
      rw [hr] at hr'
      cases hr'
      rw [hget]
      rfl
    constructor
    · intro P f k r ht hP hk hr hnone
      obtain ⟨queried, hq⟩ := GoMap.get?_of_mem_keys ((hkeys P).mpr ⟨_, ht, f, rfl, hP⟩)
      have hkq : k ∈ queried.keys := by
        have := (hnames P k).mpr ⟨_, ht, f, rfl, hP, hk⟩
        rwa [hq] at this
      rw [hstdout]
      refine List.mem_append.mpr (Or.inr ?_)
      refine filteredPass_mem flags ord _ spec providedVars hord P queried k
        (GoMap.mem_of_get? hq) hkq _ ?_
      rw [hdefined P f r ht hP hr]
      simp only [filteredVar, hnone, List.mem_singleton]
    · intro line hl hkind
      rw [hstdout] at hl
      rcases List.mem_append.mp hl with hf | hf
      · exact absurd hkind (fullPass_kind flags ord _ spec providedVars full hfull line hf)
      · obtain ⟨P, queried, k, hP, hk, hnone, hline⟩ :=
          filteredPass_undefined_line flags ord _ spec providedVars hord line hf hkind
        have hq : spec.providerVars.get? P = some queried := GoMap.get?_of_mem_nodup hvnd hP
        have hkn : k ∈ ((spec.providerVars.get? P).getD []).keys := by
          rw [hq]; exact hk
        obtain ⟨t, ht, f, rfl, hfree, hkf⟩ := (hnames P k).mp hkn
        obtain ⟨r, hr⟩ := VariablesFromProviderSpec_returns registry P
        rw [hdefined P f r ht hfree hr] at hnone
        exact ⟨P, f, k, r, ht, hfree, hkf, hr, hnone, hline⟩

/-- The token `env://HOME,MISSING_VAR`: the run writes the marker of
`MISSING_VAR`, which `env` does not return. -/
theorem filteredPass_undefined_witness :
    ∃ out, showPipeline noFlags RangeOrder.insertion envRegistry
        ["env://HOME,MISSING_VAR".toList] = some out ∧
      out.stdout = [⟨.header, "# Generated with env - specific variables:".toList⟩,
        ⟨.assignment, "HOME=/root".toList⟩,
        ⟨.undefined, "# UNDEFINED: MISSING_VAR".toList⟩] ∧
      (⟨.undefined, "# UNDEFINED: MISSING_VAR".toList⟩ : Line) ∈ out.stdout :=
  ⟨{ stdout := [⟨.header, "# Generated with env - specific variables:".toList⟩,
        ⟨.assignment, "HOME=/root".toList⟩,
        ⟨.undefined, "# UNDEFINED: MISSING_VAR".toList⟩],
      fatal := none, resolved := ["env".toList], calls := [("env".toList, [])] },
    rfl, rfl,
    (filteredPass_undefined.2.2.2.2 noFlags RangeOrder.insertion envRegistry
      ["env://HOME,MISSING_VAR".toList] _ insertion_fair rfl rfl).1
      "env".toList "HOME,MISSING_VAR".toList "MISSING_VAR".toList
      { vars := [("HOME".toList, "/root".toList), ("SHELL".toList, "/bin/bash".toList)],
        err := none, calls := [("env".toList, [])] }
      (by decide) (by decide) (by decide) rfl rfl⟩

/-- C8 (the code at the failing input): with only the name-only flag set, the
filtered-mode pass renders the present name `HOME` as the assignment
`HOME=/root`, where the full-mode pass renders the same variable as the name
`HOME`. -/
theorem filteredVar_ignores_showName :
    filteredVar { noFlags with showName := true } [] [("HOME".toList, "/root".toList)]
        "HOME".toList = [⟨.assignment, "HOME=/root".toList⟩] ∧
    fullVar { noFlags with showName := true } [] "HOME".toList "/root".toList =
      some [⟨.name, "HOME".toList⟩] ∧
    (showPipeline { noFlags with showName := true } RangeOrder.insertion envRegistry
        ["env://HOME".toList]).map (fun out => out.stdout) =
      some [⟨.header, "# Generated with env - specific variables:".toList⟩,
            ⟨.assignment, "HOME=/root".toList⟩] := by
  decide

/-- C9: the strip-key-path flag does not reach the filtered-mode pass: the pass
writes the same lines with the flag set and unset, and a present requested name
`a/b/c` is written as `a/b/c`.  The full-mode pass writes `RemoveKeyPath(k, true)`
in place of the key `k` when the flag is set, which is `c` for `a/b/c`. -/
theorem filteredPass_ignores_showRemovePath (flags : Flags) (ord : RangeOrder)
    (exportPrefix : Str) (spec : showSpec) (providedVars : GoMap (GoMap Str)) :
    filteredPass { flags with showRemovePath := true } ord exportPrefix spec providedVars =
      filteredPass { flags with showRemovePath := false } ord exportPrefix spec providedVars ∧
    (∀ v, filteredVar { flags with showRemovePath := true, showValue := false } exportPrefix
        [("a/b/c".toList, v)] "a/b/c".toList =
      [⟨.assignment,
        exportPrefix ++ "a/b/c".toList ++ "=".toList ++ AddValueQuotes v flags.showQuotes⟩]) ∧
    (∀ k v, fullVar { flags with showRemovePath := true, showValue := false, showName := false }
        exportPrefix k v =
      (RemoveKeyPath k true).map (fun key =>
        [⟨.assignment,
          exportPrefix ++ key ++ "=".toList ++ AddValueQuotes v flags.showQuotes⟩])) ∧
    (∀ k v, fullVar { flags with showRemovePath := true, showValue := false, showName := true }
        exportPrefix k v =
      (RemoveKeyPath k true).map (fun key => [⟨.name, key⟩])) ∧
    RemoveKeyPath "a/b/c".toList true = some "c".toList := by
  refine ⟨rfl, fun v => ?_, fun k v => ?_, fun k v => ?_, by decide⟩
  · simp [filteredVar, GoMap.get?]
  · cases h : RemoveKeyPath k true <;> simp [fullVar, h]
  · cases h : RemoveKeyPath k true <;> simp [fullVar, h]

/-- C10: the full-mode pass.  For every range order that visits each entry once:
the block of a provider spec is its optional header followed by a permutation of
one line per entry `(k, v)` of the resolved mapping of that provider spec, the
line being `exportPrefix ++ RemoveKeyPath(k, strip) ++ "=" ++ AddValueQuotes(v,
quotes)` with neither value-only nor name-only set, `AddValueQuotes(v, quotes)`
with value-only set and `RemoveKeyPath(k, strip)` with name-only set; the pass
is the sequence of the blocks of the entries of `providersFull`; and the
standard output of a run that ends without error is the full-mode pass followed
by the filtered-mode pass, over the mappings the providers returned.  On the
tokens `env` and `env://HOME`, with `env` resolving to `HOME=/root` and
`SHELL=/bin/bash`, the output is the Full block with `HOME=/root` and
`SHELL=/bin/bash` in some order, then the Filtered block with `HOME=/root`. -/
theorem fullPass_one_line_per_entry :
    (∀ (flags : Flags) (ord : RangeOrder) (exportPrefix : Str)
        (providedVars : GoMap (GoMap Str)) (providerSpec : Str), ord.Fair →
      ∃ body, fullBlock flags ord exportPrefix providedVars providerSpec =
          some (fullHeader flags providerSpec ++ body) ∧
        ∃ lines, body.Perm lines ∧
          List.Forall₂
            (fun kv line => ∃ key, RemoveKeyPath kv.1 flags.showRemovePath = some key ∧
              line =
                if !flags.showValue && !flags.showName then
                  ⟨.assignment, exportPrefix ++ key ++ "=".toList ++
                    AddValueQuotes kv.2 flags.showQuotes⟩
                else if flags.showValue then ⟨.value, AddValueQuotes kv.2 flags.showQuotes⟩
                else ⟨.name, key⟩)
            ((providedVars.get? providerSpec).getD []) lines) ∧
    (∀ (flags : Flags) (ord : RangeOrder) (exportPrefix : Str) (spec : showSpec)
        (providedVars : GoMap (GoMap Str)),
      ∃ blocks, fullPass flags ord exportPrefix spec providedVars = some blocks.flatten ∧
        List.Forall₂
          (fun entry block =>
            fullBlock flags ord exportPrefix providedVars entry.1 = some block)
          (ord.providersFull spec.providersFull) blocks) ∧
    (∀ (flags : Flags) (ord : RangeOrder) (registry : GoMap Plugin) (args : List Str)
        (out : Outcome), ord.Fair →
      showPipeline flags ord registry args = some out → out.fatal = none →
      ∃ spec providedVars full, parseShowSpec args = some spec ∧
        (∀ p ∈ spec.loadFrom.keys, ∃ r, VariablesFromProviderSpec registry p = some r ∧
          r.err = none ∧ providedVars.get? p = some r.vars) ∧
        fullPass flags ord (if flags.showExport then "export ".toList else []) spec
          providedVars = some full ∧
        out.stdout = full ++
          filteredPass flags ord (if flags.showExport then "export ".toList else []) spec
            providedVars) ∧
    (∀ ord : RangeOrder, ord.Fair →
      ∃ body, body.Perm [⟨.assignment, "HOME=/root".toList⟩,
          ⟨.assignment, "SHELL=/bin/bash".toList⟩] ∧
        (showPipeline noFlags ord envRegistry ["env".toList, "env://HOME".toList]).map
            (fun out => out.stdout) =
          some ([⟨.header, "# Generated with env - all variables:".toList⟩] ++ body ++
            [⟨.header, "# Generated with env - specific variables:".toList⟩,
             ⟨.assignment, "HOME=/root".toList⟩])) := by
  refine ⟨?_, ?_, ?_, show_env_example⟩
  · intro flags ord exportPrefix providedVars providerSpec hord
    obtain ⟨body, hbody, hall⟩ :=
      fullBlock_lines flags ord exportPrefix providedVars providerSpec
    obtain ⟨lines, hlines, hperm⟩ := List.perm_comp_forall₂
      (hord.2.2.1 providerSpec ((providedVars.get? providerSpec).getD [])).symm hall
    exact ⟨body, hbody, lines, hperm.symm, hlines⟩
  · intro flags ord exportPrefix spec providedVars
    exact forEach_blocks _ _ (fun entry _ =>
      fullBlock_returns flags ord exportPrefix providedVars entry.1)
  · intro flags ord registry args out hord hout hfatal
    obtain ⟨spec, hspec, -, -, -⟩ :=
      foldlM_parseArg args { loadFrom := [], providersFull := [], providerVars := [] }
    obtain ⟨st, hst⟩ := resolveLoop_returns registry (ord.loadFrom spec.loadFrom).keys
      { providedVars := [], resolved := [], calls := [], fatal := none }
    simp only [showPipeline, parseShowSpec, hspec, hst, Option.some_bind,
      Option.bind_eq_bind] at hout
    cases hf : st.fatal with
    | some e =>
      simp only [hf] at hout
      cases hout
      cases hfatal
    | none =>
      simp only [hf] at hout
      obtain ⟨blocks, hblocks, -⟩ := forEach_blocks
        (fun entry : Str × Unit => fullBlock flags ord
          (if flags.showExport then "export ".toList else []) st.providedVars entry.1)
        (ord.providersFull spec.providersFull)
        (fun entry _ => fullBlock_returns flags ord _ st.providedVars entry.1)
      have hfull : fullPass flags ord (if flags.showExport then "export ".toList else []) spec
          st.providedVars = some blocks.flatten := hblocks
      simp only [hfull, Option.some_bind, Option.bind_eq_bind] at hout
      cases hout
      refine ⟨spec, st.providedVars, blocks.flatten, hspec, ?_, hfull, rfl⟩
      intro p hp
      exact (resolveLoop_ok registry _ _ st hst rfl hf).1 p
        (((hord.1 spec.loadFrom).map Prod.fst).mem_iff.mpr hp)

/-- The end-to-end example in the order in which the maps were filled. -/
theorem fullPass_one_line_per_entry_witness :
    ∃ body, body.Perm [⟨.assignment, "HOME=/root".toList⟩,
        ⟨.assignment, "SHELL=/bin/bash".toList⟩] ∧
      (showPipeline noFlags RangeOrder.insertion envRegistry
          ["env".toList, "env://HOME".toList]).map (fun out => out.stdout) =
        some ([⟨.header, "# Generated with env - all variables:".toList⟩] ++ body ++
          [⟨.header, "# Generated with env - specific variables:".toList⟩,
           ⟨.assignment, "HOME=/root".toList⟩]) :=
  fullPass_one_line_per_entry.2.2.2 RangeOrder.insertion insertion_fair

/-! ## Comments, helpers and the shape of the parse -/

/-- C11 (as stated, refuted): on the token `env://MISSING_VAR`, with `env`
resolving to `HOME=/root`, `SHELL=/bin/bash` and no flag set, standard output is
not the one line `# UNDEFINED: MISSING_VAR`: the header of the filtered-mode block
comes first. -/
theorem showPipeline_missing_var_not_one_line :
    (showPipeline noFlags RangeOrder.insertion envRegistry ["env://MISSING_VAR".toList]).map
        (fun out => out.stdout.map (fun line => line.text)) =
      some ["# Generated with env - specific variables:".toList,
            "# UNDEFINED: MISSING_VAR".toList] ∧
    (showPipeline noFlags RangeOrder.insertion envRegistry ["env://MISSING_VAR".toList]).map
        (fun out => out.stdout.map (fun line => line.text)) ≠
      some ["# UNDEFINED: MISSING_VAR".toList] := by
  decide

/-- C11 (amended): for a single token `P://N`, with no `"://"` in `P` and no `","`
in `N`, whose provider portion resolves without error to a mapping that does not
hold `N`, standard output with no flag set is exactly two lines: the header
`# Generated with P - specific variables:` and then `# UNDEFINED: N`. -/
theorem showPipeline_missing_var (ord : RangeOrder) (registry : GoMap Plugin) (P N : Str)
    (r : Resolution) (hord : ord.Fair) (hP : ¬ "://".toList <:+: P) (hN : ',' ∉ N)
    (hr : VariablesFromProviderSpec registry P = some r) (herr : r.err = none)
    (hmiss : r.vars.get? N = none) :
    (showPipeline noFlags ord registry [P ++ "://".toList ++ N]).map (fun out => out.stdout) =
      some [⟨.header, "# Generated with ".toList ++ P ++ " - specific variables:".toList⟩,
            ⟨.undefined, "# UNDEFINED: ".toList ++ N⟩] := by
  have h1 : ord.loadFrom [(P, ())] = [(P, ())] := List.perm_singleton.mp (hord.1 _)
  have h2 : ord.providersFull [] = [] := List.perm_nil.mp (hord.2.1 _)
  have h3 : ord.providerVars [(P, [(N, ())])] = [(P, [(N, ())])] :=
    List.perm_singleton.mp (hord.2.2.2.1 _)
  have h4 : ord.queriedVars P [(N, ())] = [(N, ())] :=
    List.perm_singleton.mp (hord.2.2.2.2 _ _)
  have hparse : parseShowSpec [P ++ "://".toList ++ N] = some
      { loadFrom := [(P, ())], providersFull := [], providerVars := [(P, [(N, ())])] } := by
    rw [parseShowSpec_singleton, parseArg_filtered _ P N hP,
      Split_free comma_ne_nil N (fun h => hN ((singleton_infix_iff ',' N).mp h))]
    rfl
  simp only [showPipeline, hparse, Option.some_bind, Option.bind_eq_bind, h1, GoMap.keys,
    List.map_cons, List.map_nil, resolveLoop, hr, herr, fullPass, h2, forEach, filteredPass, h3,
    filteredBlock, h4, GoMap.set, GoMap.get?, if_true, Option.getD_some, filteredVar, hmiss]
  rfl

/-- The token `env://MISSING_VAR` gives the header and the UNDEFINED line. -/
theorem showPipeline_missing_var_witness :
    (showPipeline noFlags RangeOrder.insertion envRegistry ["env://MISSING_VAR".toList]).map
        (fun out => out.stdout) =
      some [⟨.header, "# Generated with env - specific variables:".toList⟩,
            ⟨.undefined, "# UNDEFINED: MISSING_VAR".toList⟩] :=
  showPipeline_missing_var RangeOrder.insertion envRegistry "env".toList "MISSING_VAR".toList
    { vars := [("HOME".toList, "/root".toList), ("SHELL".toList, "/bin/bash".toList)],
      err := none, calls := [("env".toList, [])] }
    insertion_fair (by decide) (by decide) rfl rfl rfl

/-- C12 (the code at the failing input): with the raw flag set the two headers
are not written, but the token `env://MISSING_VAR` still puts the comment line
`# UNDEFINED: MISSING_VAR` on standard output. -/
theorem showPipeline_raw_keeps_undefined :
    (showPipeline { noFlags with showRaw := true } RangeOrder.insertion envRegistry
        ["env://MISSING_VAR".toList]).map (fun out => out.stdout) =
      some [⟨.undefined, "# UNDEFINED: MISSING_VAR".toList⟩] ∧
    (∀ (flags : Flags) (providerSpec : Str),
      fullHeader { flags with showRaw := true } providerSpec = [] ∧
      filteredHeader { flags with showRaw := true } providerSpec = []) :=
  ⟨by decide, fun _ _ => ⟨rfl, rfl⟩⟩

/-- C13: `RemoveKeyPath(key, false)` is `key`.  `RemoveKeyPath(key, true)` is a
suffix `r` of `key` without `"/"`; what stands before it in `key` is empty, which
is the case exactly when `key` holds no `"/"`, or ends in `"/"`.  On `a/b/c` the
results are `c` and `a/b/c`. -/
theorem RemoveKeyPath_last_segment (key : Str) :
    RemoveKeyPath key false = some key ∧
    (∃ pre r, RemoveKeyPath key true = some r ∧ '/' ∉ r ∧ key = pre ++ r ∧
      (pre = [] ↔ '/' ∉ key) ∧ (pre = [] ∨ ∃ pre', pre = pre' ++ "/".toList)) ∧
    RemoveKeyPath "a/b/c".toList true = some "c".toList ∧
    RemoveKeyPath "a/b/c".toList false = some "a/b/c".toList := by
  refine ⟨rfl, ?_, by decide, by decide⟩
  obtain ⟨pre, r, hlast, hcut, hpre⟩ := genSplit_getLast? "/".toList key.length key
  have hsplit : Split key "/".toList = genSplit "/".toList key.length key := by
    simp only [Split, slash_ne_nil, if_false]
  have hfree : '/' ∉ r := by
    intro hmem
    refine Split_pieces_free slash_ne_nil key r ?_ ((singleton_infix_iff '/' r).mpr hmem)
    rw [hsplit]
    exact List.mem_of_getLast?_eq_some hlast
  refine ⟨pre, r, ?_, hfree, hcut, ?_, hpre⟩
  · rw [RemoveKeyPath_true, hsplit]
    exact hlast
  · constructor
    · intro hnil
      rw [hcut, hnil]
      exact hfree
    · intro hkey
      rcases hpre with hnil | ⟨pre', hpre'⟩
      · exact hnil
      · exfalso
        apply hkey
        rw [hcut, hpre']
        simp

/-- C14: `AddValueQuotes(v, false)` is `v`, `AddValueQuotes(v, true)` is `v`
between two double quotes, with the quotes inside `v` left as they are, and
applying `AddValueQuotes(·, false)` to a quoted value changes nothing. -/
theorem AddValueQuotes_wraps (v : Str) :
    AddValueQuotes v false = v ∧
    AddValueQuotes v true = "\"".toList ++ v ++ "\"".toList ∧
    AddValueQuotes (AddValueQuotes v true) false = AddValueQuotes v true ∧
    AddValueQuotes "a\"b".toList true = "\"a\"b\"".toList :=
  ⟨rfl, rfl, rfl, by decide⟩

/-- C15: when the provider portion of every token resolves without error, the
pipeline returns without error and the provider specs it handed to
`VariablesFromProviderSpec` are, without repetition, exactly the provider portions
of the tokens: one call for each distinct portion, however many tokens share it. -/
theorem showPipeline_resolves_each_once (flags : Flags) (ord : RangeOrder)
    (registry : GoMap Plugin) (args : List Str) (hord : ord.Fair)
    (hok : ∀ t ∈ args, ∀ p, ¬ "://".toList <:+: p →
      (t = p ∨ ∃ f, t = p ++ "://".toList ++ f) →
      ∃ r, VariablesFromProviderSpec registry p = some r ∧ r.err = none) :
    ∃ out, showPipeline flags ord registry args = some out ∧ out.fatal = none ∧
      out.resolved.Nodup ∧
      ∀ p, p ∈ out.resolved ↔
        ∃ t ∈ args, ¬ "://".toList <:+: p ∧ (t = p ∨ ∃ f, t = p ++ "://".toList ++ f) := by
  obtain ⟨spec, hspec, hload, -, -, -, hnd, -⟩ := parseShowSpec_sets args
  have hperm : (ord.loadFrom spec.loadFrom).keys.Perm spec.loadFrom.keys :=
    (hord.1 spec.loadFrom).map Prod.fst
  have hall : ∀ p ∈ (ord.loadFrom spec.loadFrom).keys,
      ∃ r, VariablesFromProviderSpec registry p = some r ∧ r.err = none := by
    intro p hp
    obtain ⟨t, ht, hfree, hcut⟩ := (hload p).mp (hperm.mem_iff.mp hp)
    exact hok t ht p hfree hcut
  obtain ⟨st, hst, hfat, hres⟩ := resolveLoop_all_ok registry _
    { providedVars := [], resolved := [], calls := [], fatal := none } hall
  obtain ⟨blocks, hblocks, -⟩ := forEach_blocks
    (fun entry : Str × Unit => fullBlock flags ord
      (if flags.showExport then "export ".toList else []) st.providedVars entry.1)
    (ord.providersFull spec.providersFull)
    (fun entry _ => fullBlock_returns flags ord _ st.providedVars entry.1)
  have hfull : fullPass flags ord (if flags.showExport then "export ".toList else []) spec
      st.providedVars = some blocks.flatten := hblocks
  have hfat' : st.fatal = none := hfat
  have hres' : st.resolved = (ord.loadFrom spec.loadFrom).keys := by
    rw [hres]; rfl
  refine ⟨{ stdout := blocks.flatten ++ filteredPass flags ord
              (if flags.showExport then "export ".toList else []) spec st.providedVars,
            fatal := none, resolved := st.resolved, calls := st.calls }, ?_, rfl, ?_, ?_⟩
  · simp only [showPipeline, hspec, hst, Option.some_bind, Option.bind_eq_bind, hfat', hfull]
    rfl
  · show st.resolved.Nodup
    rw [hres']
    exact hperm.nodup_iff.mpr hnd
  · intro p
    show p ∈ st.resolved ↔ _
    rw [hres', hperm.mem_iff]
    exact hload p

/-- The tokens `env://HOME`, `env` and `env://SHELL` share the provider portion
`env`, which is resolved once. -/
theorem showPipeline_resolves_each_once_witness :
    ∃ out, showPipeline noFlags RangeOrder.insertion envRegistry
        ["env://HOME".toList, "env".toList, "env://SHELL".toList] = some out ∧
      out.fatal = none ∧ out.resolved.Nodup ∧
      ∀ p, p ∈ out.resolved ↔
        ∃ t ∈ ["env://HOME".toList, "env".toList, "env://SHELL".toList],
          ¬ "://".toList <:+: p ∧ (t = p ∨ ∃ f, t = p ++ "://".toList ++ f) :=
  showPipeline_resolves_each_once noFlags RangeOrder.insertion envRegistry
    ["env://HOME".toList, "env".toList, "env://SHELL".toList] insertion_fair
    (by
      have henv : ¬ "://".toList <:+: "env".toList := by decide
      have hres : ∃ r, VariablesFromProviderSpec envRegistry "env".toList = some r ∧
          r.err = none := ⟨_, rfl, rfl⟩
      intro t ht p hp hcut
      simp only [List.mem_cons, List.mem_singleton, List.not_mem_nil, or_false] at ht
      rcases ht with rfl | rfl | rfl
      · rcases hcut with h | ⟨f, h⟩
        · exact absurd (h ▸ (by decide : "://".toList <:+: "env://HOME".toList)) hp
        · have := (cut_unique unbordered_scheme hp henv
            (h.symm.trans (rfl : "env://HOME".toList = "env".toList ++ "://".toList ++
              "HOME".toList))).1
          exact this ▸ hres
      · rcases hcut with h | ⟨f, h⟩
        · exact h ▸ hres
        · exact absurd ⟨p, f, h.symm⟩ henv
      · rcases hcut with h | ⟨f, h⟩
        · exact absurd (h ▸ (by decide : "://".toList <:+: "env://SHELL".toList)) hp
        · have := (cut_unique unbordered_scheme hp henv
            (h.symm.trans (rfl : "env://SHELL".toList = "env".toList ++ "://".toList ++
              "SHELL".toList))).1
          exact this ▸ hres)

/-- C16: the keys of `loadFrom` are exactly the provider portions of the tokens,
and they are the keys of `providersFull` together with the keys of
`providerVars`.  So in a run that ends without error every provider spec that the
full-mode or the filtered-mode pass visits has its entry in `providedVars`, the
mapping its resolution returned. -/
theorem parseShowSpec_loadFrom_is_union :
    (∀ args : List Str, ∃ spec, parseShowSpec args = some spec ∧
      (∀ k, k ∈ spec.loadFrom.keys ↔
        ∃ t ∈ args, ¬ "://".toList <:+: k ∧ (t = k ∨ ∃ f, t = k ++ "://".toList ++ f)) ∧
      (∀ k, k ∈ spec.loadFrom.keys ↔
        k ∈ spec.providersFull.keys ∨ k ∈ spec.providerVars.keys)) ∧
    (∀ (flags : Flags) (ord : RangeOrder) (registry : GoMap Plugin) (args : List Str)
        (out : Outcome), ord.Fair →
      showPipeline flags ord registry args = some out → out.fatal = none →
      ∃ spec providedVars full, parseShowSpec args = some spec ∧
        fullPass flags ord (if flags.showExport then "export ".toList else []) spec
          providedVars = some full ∧
        out.stdout = full ++
          filteredPass flags ord (if flags.showExport then "export ".toList else []) spec
            providedVars ∧
        ∀ k, k ∈ (ord.providersFull spec.providersFull).keys ∨
            k ∈ (ord.providerVars spec.providerVars).keys →
          ∃ r, VariablesFromProviderSpec registry k = some r ∧
            providedVars.get? k = some r.vars) := by
  have hunion : ∀ args : List Str, ∃ spec, parseShowSpec args = some spec ∧
      (∀ k, k ∈ spec.loadFrom.keys ↔
        ∃ t ∈ args, ¬ "://".toList <:+: k ∧ (t = k ∨ ∃ f, t = k ++ "://".toList ++ f)) ∧
      (∀ k, k ∈ spec.loadFrom.keys ↔
        k ∈ spec.providersFull.keys ∨ k ∈ spec.providerVars.keys) := by
    intro args
    obtain ⟨spec, hspec, hload, hfull, hkeys, -, -, -⟩ := parseShowSpec_sets args
    refine ⟨spec, hspec, hload, fun k => ?_⟩
    rw [hload k, hfull k, hkeys k]
    constructor
    · rintro ⟨t, ht, hfree, rfl | ⟨f, hf⟩⟩
      · exact Or.inl ⟨ht, hfree⟩
      · exact Or.inr ⟨t, ht, f, hf, hfree⟩
    · rintro (⟨hk, hfree⟩ | ⟨t, ht, f, hf, hfree⟩)
      · exact ⟨k, hk, hfree, Or.inl rfl⟩
      · exact ⟨t, ht, hfree, Or.inr ⟨f, hf⟩⟩
  refine ⟨hunion, ?_⟩
  intro flags ord registry args out hord hout hfatal
  obtain ⟨spec, providedVars, full, hspec, hres, hfull, hstdout⟩ :=
    showPipeline_ok_run flags ord registry args out hord hout hfatal
  obtain ⟨spec', hspec', -, hun⟩ := hunion args
  rw [hspec] at hspec'
  cases hspec'
  refine ⟨spec, providedVars, full, hspec, hfull, hstdout, fun k hk => ?_⟩
  have hmem : k ∈ spec.loadFrom.keys := by
    rcases hk with h | h
    · exact (hun k).mpr (Or.inl (((hord.2.1 _).map Prod.fst).mem_iff.mp h))
    · exact (hun k).mpr (Or.inr (((hord.2.2.2.1 _).map Prod.fst).mem_iff.mp h))
  obtain ⟨r, hr, -, hget⟩ := hres k hmem
  exact ⟨r, hr, hget⟩

/-- On the tokens `env` and `env://HOME` both passes visit `env`, and `env` has its
entry in `providedVars`. -/
theorem parseShowSpec_loadFrom_is_union_witness :
    ∃ spec providedVars full,
      parseShowSpec ["env".toList, "env://HOME".toList] = some spec ∧
      fullPass noFlags RangeOrder.insertion
        (if noFlags.showExport then "export ".toList else []) spec providedVars = some full ∧
      [⟨.header, "# Generated with env - all variables:".toList⟩,
        ⟨.assignment, "HOME=/root".toList⟩, ⟨.assignment, "SHELL=/bin/bash".toList⟩,
        ⟨.header, "# Generated with env - specific variables:".toList⟩,
        ⟨.assignment, "HOME=/root".toList⟩] = full ++
        filteredPass noFlags RangeOrder.insertion
          (if noFlags.showExport then "export ".toList else []) spec providedVars ∧
      ∀ k, k ∈ (RangeOrder.insertion.providersFull spec.providersFull).keys ∨
          k ∈ (RangeOrder.insertion.providerVars spec.providerVars).keys →
        ∃ r, VariablesFromProviderSpec envRegistry k = some r ∧
          providedVars.get? k = some r.vars :=
  parseShowSpec_loadFrom_is_union.2 noFlags RangeOrder.insertion envRegistry
    ["env".toList, "env://HOME".toList]
    { stdout := [⟨.header, "# Generated with env - all variables:".toList⟩,
        ⟨.assignment, "HOME=/root".toList⟩, ⟨.assignment, "SHELL=/bin/bash".toList⟩,
        ⟨.header, "# Generated with env - specific variables:".toList⟩,
        ⟨.assignment, "HOME=/root".toList⟩],
      fatal := none, resolved := ["env".toList], calls := [("env".toList, [])] }
    insertion_fair rfl rfl

/-- C17: when a token list holds both the token `P` (no `"://"` in it) and a token
`P://f`, in whatever order, the parse has `P` among the keys of `providersFull` and
among the keys of `providerVars`, there with every comma piece of `f` as a
requested name.  For every range order that visits each entry once, the lines of
the full-mode pass hold the full-mode block of `P`, which starts with its header,
and the lines of the filtered-mode pass hold the filtered-mode block of `P`. -/
theorem parseShowSpec_full_and_filtered (args : List Str) (P f : Str)
    (hP : ¬ "://".toList <:+: P) (hfull : P ∈ args)
    (hfiltered : P ++ "://".toList ++ f ∈ args) :
    ∃ spec queried, parseShowSpec args = some spec ∧ P ∈ spec.providersFull.keys ∧
      spec.providerVars.get? P = some queried ∧
      (∀ n ∈ Split f ",".toList, n ∈ queried.keys) ∧
      ∀ (flags : Flags) (ord : RangeOrder) (exportPrefix : Str)
        (providedVars : GoMap (GoMap Str)), ord.Fair →
        ∃ full block, fullPass flags ord exportPrefix spec providedVars = some full ∧
          fullBlock flags ord exportPrefix providedVars P = some block ∧
          fullHeader flags P <+: block ∧ block <:+: full ∧
          filteredBlock flags ord exportPrefix providedVars P queried <:+:
            filteredPass flags ord exportPrefix spec providedVars := by
  obtain ⟨spec, hspec, -, hfullkeys, hkeys, hnames, -, -⟩ := parseShowSpec_sets args
  have hPfull : P ∈ spec.providersFull.keys := (hfullkeys P).mpr ⟨hfull, hP⟩
  have hPvars : P ∈ spec.providerVars.keys := (hkeys P).mpr ⟨_, hfiltered, f, rfl, hP⟩
  obtain ⟨queried, hq⟩ := GoMap.get?_of_mem_keys hPvars
  refine ⟨spec, queried, hspec, hPfull, hq, fun n hn => ?_, ?_⟩
  · have := (hnames P n).mpr ⟨_, hfiltered, f, rfl, hP, hn⟩
    rwa [hq] at this
  · intro flags ord exportPrefix providedVars hord
    obtain ⟨blocks, hblocks, -⟩ := forEach_blocks
      (fun entry : Str × Unit => fullBlock flags ord exportPrefix providedVars entry.1)
      (ord.providersFull spec.providersFull)
      (fun entry _ => fullBlock_returns flags ord exportPrefix providedVars entry.1)
    have hpass : fullPass flags ord exportPrefix spec providedVars = some blocks.flatten :=
      hblocks
    have hentry : (P, ()) ∈ ord.providersFull spec.providersFull := by
      refine (hord.2.1 spec.providersFull).mem_iff.mpr ?_
      obtain ⟨e, he, hfst⟩ := List.mem_map.mp hPfull
      obtain ⟨k, u⟩ := e
      simp only at hfst
      subst hfst
      exact he
    obtain ⟨block, hblock, hin⟩ := forEach_mem _ _ _ hblocks (P, ()) hentry
    obtain ⟨body, hbody, -⟩ := fullBlock_lines flags ord exportPrefix providedVars P
    have hhead : fullHeader flags P <+: block := by
      have hsome : some block = some (fullHeader flags P ++ body) := hblock.symm.trans hbody
      cases hsome
      exact List.prefix_append _ _
    refine ⟨blocks.flatten, block, hpass, hblock, hhead, hin, ?_⟩
    have hmem : (P, queried) ∈ ord.providerVars spec.providerVars :=
      (hord.2.2.2.1 spec.providerVars).mem_iff.mpr (GoMap.mem_of_get? hq)
    exact List.infix_of_mem_flatten (List.mem_map.mpr ⟨(P, queried), hmem, rfl⟩)

/-- The tokens `env://HOME` and `env`, the filtered one first. -/
theorem parseShowSpec_full_and_filtered_witness :
    ∃ spec queried, parseShowSpec ["env://HOME".toList, "env".toList] = some spec ∧
      "env".toList ∈ spec.providersFull.keys ∧
      spec.providerVars.get? "env".toList = some queried ∧
      (∀ n ∈ Split "HOME".toList ",".toList, n ∈ queried.keys) ∧
      ∀ (flags : Flags) (ord : RangeOrder) (exportPrefix : Str)
        (providedVars : GoMap (GoMap Str)), ord.Fair →
        ∃ full block, fullPass flags ord exportPrefix spec providedVars = some full ∧
          fullBlock flags ord exportPrefix providedVars "env".toList = some block ∧
          fullHeader flags "env".toList <+: block ∧ block <:+: full ∧
          filteredBlock flags ord exportPrefix providedVars "env".toList queried <:+:
            filteredPass flags ord exportPrefix spec providedVars :=
  parseShowSpec_full_and_filtered ["env://HOME".toList, "env".toList] "env".toList
    "HOME".toList (by decide) (by decide) (by decide)

/-- C18: the sets of a parse depend only on which tokens occur in the list.  Two
token lists with the same members, such as a list and a permutation of it or a
list and the list written twice, give the same keys of `loadFrom`, `providersFull`
and `providerVars` and the same requested names for every provider spec; and each
set of the parse of `xs ++ ys` is the union of that set in the parse of `xs` and in
the parse of `ys`. -/
theorem parseShowSpec_depends_on_token_set :
    (∀ xs ys : List Str, (∀ t, t ∈ xs ↔ t ∈ ys) →
      ∃ sx sy, parseShowSpec xs = some sx ∧ parseShowSpec ys = some sy ∧ sx.SameSets sy) ∧
    (∀ xs ys : List Str, xs.Perm ys →
      ∃ sx sy, parseShowSpec xs = some sx ∧ parseShowSpec ys = some sy ∧ sx.SameSets sy) ∧
    (∀ xs : List Str,
      ∃ sx sxx, parseShowSpec xs = some sx ∧ parseShowSpec (xs ++ xs) = some sxx ∧
        sx.SameSets sxx) ∧
    (∀ xs ys : List Str,
      ∃ sx sy su, parseShowSpec xs = some sx ∧ parseShowSpec ys = some sy ∧
        parseShowSpec (xs ++ ys) = some su ∧
        (∀ k, k ∈ su.loadFrom.keys ↔ k ∈ sx.loadFrom.keys ∨ k ∈ sy.loadFrom.keys) ∧
        (∀ k, k ∈ su.providersFull.keys ↔
          k ∈ sx.providersFull.keys ∨ k ∈ sy.providersFull.keys) ∧
        (∀ k, k ∈ su.providerVars.keys ↔
          k ∈ sx.providerVars.keys ∨ k ∈ sy.providerVars.keys) ∧
        (∀ P n, n ∈ ((su.providerVars.get? P).getD []).keys ↔
          n ∈ ((sx.providerVars.get? P).getD []).keys ∨
          n ∈ ((sy.providerVars.get? P).getD []).keys)) := by
  have hsame : ∀ xs ys : List Str, (∀ t, t ∈ xs ↔ t ∈ ys) →
      ∃ sx sy, parseShowSpec xs = some sx ∧ parseShowSpec ys = some sy ∧ sx.SameSets sy := by
    intro xs ys hmem
    obtain ⟨sx, hsx, hx1, hx2, hx3, hx4, -, -⟩ := parseShowSpec_sets xs
    obtain ⟨sy, hsy, hy1, hy2, hy3, hy4, -, -⟩ := parseShowSpec_sets ys
    refine ⟨sx, sy, hsx, hsy, fun k => ?_, fun k => ?_, fun k => ?_, fun P n => ?_⟩
    · rw [hx1 k, hy1 k]; simp only [hmem]
    · rw [hx2 k, hy2 k, hmem k]
    · rw [hx3 k, hy3 k]; simp only [hmem]
    · rw [hx4 P n, hy4 P n]; simp only [hmem]
  refine ⟨hsame, fun xs ys hperm => hsame xs ys (fun t => hperm.mem_iff),
    fun xs => hsame xs (xs ++ xs) (fun t => by simp), fun xs ys => ?_⟩
  obtain ⟨sx, hsx, hx1, hx2, hx3, hx4, -, -⟩ := parseShowSpec_sets xs
  obtain ⟨sy, hsy, hy1, hy2, hy3, hy4, -, -⟩ := parseShowSpec_sets ys
  obtain ⟨su, hsu, hu1, hu2, hu3, hu4, -, -⟩ := parseShowSpec_sets (xs ++ ys)
  refine ⟨sx, sy, su, hsx, hsy, hsu, fun k => ?_, fun k => ?_, fun k => ?_, fun P n => ?_⟩
  · rw [hu1 k, hx1 k, hy1 k]
    simp only [List.mem_append, or_and_right, exists_or]
  · rw [hu2 k, hx2 k, hy2 k]
    simp only [List.mem_append, or_and_right]
  · rw [hu3 k, hx3 k, hy3 k]
    simp only [List.mem_append, or_and_right, exists_or]
  · rw [hu4 P n, hx4 P n, hy4 P n]
    simp only [List.mem_append, or_and_right, exists_or]

/-- The tokens `env`, `aws://A,B` parsed in the two orders hold the same sets. -/
theorem parseShowSpec_depends_on_token_set_witness :
    ∃ sx sy, parseShowSpec ["env".toList, "aws://A,B".toList] = some sx ∧
      parseShowSpec ["aws://A,B".toList, "env".toList] = some sy ∧ sx.SameSets sy :=
  parseShowSpec_depends_on_token_set.2.1 ["env".toList, "aws://A,B".toList]
    ["aws://A,B".toList, "env".toList] (List.Perm.swap _ _ _)

/-- C19: a split on `"://"`, `"+"` or `"/"` has at least one piece, for the empty
string too, so `components[0]` and `valSlice[len(valSlice)-1]` are in bounds, and
`parseShowSpec`, `VariablesFromProviderSpec` and `RemoveKeyPath` return on every
input. -/
theorem split_index_in_bounds :
    (∀ s : Str, 0 < (Split s "://".toList).length ∧ ((Split s "://".toList)[0]?).isSome) ∧
    (∀ s : Str, 0 < (Split s "+".toList).length ∧ ((Split s "+".toList)[0]?).isSome) ∧
    (∀ s : Str, 0 < (Split s "/".toList).length ∧
      ((Split s "/".toList)[(Split s "/".toList).length - 1]?).isSome) ∧
    Split [] "://".toList = [[]] ∧ Split [] "+".toList = [[]] ∧ Split [] "/".toList = [[]] ∧
    (∀ args : List Str, (parseShowSpec args).isSome) ∧
    (∀ (registry : GoMap Plugin) (s : Str), (VariablesFromProviderSpec registry s).isSome) ∧
    (∀ (key : Str) (removePath : Bool), (RemoveKeyPath key removePath).isSome) := by
  have hpos : ∀ (sep : Str), sep ≠ [] → ∀ s : Str, 0 < (Split s sep).length :=
    fun sep hsep s => List.length_pos.mpr (Split_ne_nil hsep s)
  have hget : ∀ (l : List Str) (i : Nat), i < l.length → (l[i]?).isSome := by
    intro l i hi
    rw [List.getElem?_eq_getElem hi]
    rfl
  refine ⟨fun s => ⟨hpos _ scheme_ne_nil s, hget _ _ (hpos _ scheme_ne_nil s)⟩,
    fun s => ⟨hpos _ plus_ne_nil s, hget _ _ (hpos _ plus_ne_nil s)⟩,
    fun s => ⟨hpos _ slash_ne_nil s, hget _ _ ?_⟩, by decide, by decide, by decide,
    fun args => ?_, fun registry s => ?_, fun key removePath => ?_⟩
  · have := hpos _ slash_ne_nil s
    omega
  · obtain ⟨spec, hspec, -⟩ := parseShowSpec_sets args
    rw [hspec]; rfl
  · obtain ⟨r, hr⟩ := VariablesFromProviderSpec_returns registry s
    rw [hr]; rfl
  · obtain ⟨k, hk⟩ := RemoveKeyPath_returns key removePath
    rw [hk]; rfl

/-- C20: every provider spec that a parse registers in `providerVars` has a
requested-name set that is not empty.  The token `P://` gives `P` the one
requested name `""`, and the token `P://A,` gives `P` the names `A` and `""`. -/
theorem parseShowSpec_requested_nonempty :
    (∀ args : List Str, ∃ spec, parseShowSpec args = some spec ∧
      ∀ P ∈ spec.providerVars.keys, ∃ queried, spec.providerVars.get? P = some queried ∧
        queried ≠ [] ∧ ∃ n, n ∈ queried.keys) ∧
    (∀ P : Str, ¬ "://".toList <:+: P →
      parseShowSpec [P ++ "://".toList] = some
        { loadFrom := [(P, ())], providersFull := [],
          providerVars := [(P, [([], ())])] }) ∧
    (∀ P A : Str, ¬ "://".toList <:+: P → ',' ∉ A →
      parseShowSpec [P ++ "://".toList ++ (A ++ ",".toList)] = some
        { loadFrom := [(P, ())], providersFull := [],
          providerVars := [(P, insertAll [] [A, []])] } ∧
      ∀ n, n ∈ (insertAll [] [A, []]).keys ↔ n = A ∨ n = []) := by
  refine ⟨fun args => ?_, fun P hP => ?_, fun P A hP hA => ⟨?_, fun n => ?_⟩⟩
  · obtain ⟨spec, hspec, -, -, -, -, -, hne⟩ := parseShowSpec_sets args
    refine ⟨spec, hspec, fun P hPmem => ?_⟩
    obtain ⟨queried, hq⟩ := GoMap.get?_of_mem_keys hPmem
    have hqne : queried ≠ [] := hne (P, queried) (GoMap.mem_of_get? hq)
    refine ⟨queried, hq, hqne, ?_⟩
    cases queried with
    | nil => exact absurd rfl hqne
    | cons e rest => exact ⟨e.1, by simp [GoMap.keys]⟩
  · have h := parseArg_filtered
      { loadFrom := [], providersFull := [], providerVars := [] } P [] hP
    rw [List.append_nil] at h
    rw [parseShowSpec_singleton, h]
    rfl
  · have hsplit : Split (A ++ ",".toList) ",".toList = [A, []] := by
      have h := Split_append comma_ne_nil (unbordered_singleton ',') A []
        (fun h => hA ((singleton_infix_iff ',' A).mp h))
      rw [List.append_nil] at h
      rw [h]
      rfl
    rw [parseShowSpec_singleton, parseArg_filtered _ P _ hP, hsplit]
    rfl
  · rw [mem_keys_insertAll]
    simp [GoMap.keys]

/-- The tokens `env://` and `env://HOME,`. -/
theorem parseShowSpec_requested_nonempty_witness :
    parseShowSpec ["env://".toList] = some
        { loadFrom := [("env".toList, ())], providersFull := [],
          providerVars := [("env".toList, [([], ())])] } ∧
    parseShowSpec ["env://HOME,".toList] = some
        { loadFrom := [("env".toList, ())], providersFull := [],
          providerVars := [("env".toList, [("HOME".toList, ()), ([], ())])] } :=
  ⟨parseShowSpec_requested_nonempty.2.1 "env".toList (by decide),
    (parseShowSpec_requested_nonempty.2.2 "env".toList "HOME".toList (by decide)
      (by decide)).1⟩

end Checkenv
